import Mathlib

/-! Recurrence date engine of the to-do service.

A shallow embedding of `internal/service/service.go` (`NextDate`,
`findNextWeekday`, `findNextMonthDay`, `contains`) together with the parts of
the Go standard library it calls (`time`, `strings`, `strconv`).

Modelling conventions.

* Go strings are `List Char`.  The code only compares against, splits on and
  parses ASCII characters, so characters and bytes behave alike.
* A `time.Time` is modelled at 00:00:00 UTC and identified by its Unix day
  number (days since 1970-01-01, proleptic Gregorian calendar).  This is what
  `time.Parse("20060102", _)` produces and what the claims quantify over.
* A `time.Duration` is an `Int` number of nanoseconds; `Time.Sub` saturates at
  the `int64` limits exactly as the library documents.
* Go's `int` is 64 bit: `Atoi` rejects values outside `[-2^63, 2^63)`.  No
  other arithmetic of the engine can leave that range.
* A Go `(string, error)` result is an `Except Err (List Char)`.
-/

namespace Todo

/-! ## Package `time` -/

/-- A `time.Time` at midnight UTC, given by its Unix day number. -/
structure Time where
  days : Int
deriving DecidableEq, Repr

/-- Go `time.isLeap`. -/
def isLeap (year : Int) : Bool :=
  year % 4 == 0 && (year % 100 != 0 || year % 400 == 0)

/-- Go `time.daysBefore[k]`: days of a non-leap year before month `k + 1`. -/
def daysBefore (k : Int) : Int :=
  if k ≤ 0 then 0
  else if k = 1 then 31
  else if k = 2 then 59
  else if k = 3 then 90
  else if k = 4 then 120
  else if k = 5 then 151
  else if k = 6 then 181
  else if k = 7 then 212
  else if k = 8 then 243
  else if k = 9 then 273
  else if k = 10 then 304
  else if k = 11 then 334
  else 365

/-- Go `time.daysIn`: the length of `month` (1..12) in `year`. -/
def daysIn (month year : Int) : Int :=
  if month = 2 ∧ isLeap year then 29
  else daysBefore month - daysBefore (month - 1)

/-- Go `time.daysSinceEpoch`, shifted to the Unix epoch: the day number of
January 1 of `year`.  The three quotients count the leap years before `year`. -/
def daysSinceEpoch (year : Int) : Int :=
  365 * year + (year + 3) / 4 - (year + 99) / 100 + (year + 399) / 400 - 719528

/-- Go `time.Date(year, month, day, 0, 0, 0, 0, time.UTC)`.  The month is
normalised into 1..12 with carry into the year (`norm`); the day is not
range-checked but simply added, so day 0 is the last day of the previous month
and day 29 of a 28-day February is March 1. -/
def Date (year month day : Int) : Time :=
  let m := month - 1
  let year := year + m / 12
  let m := m % 12
  let month := m + 1
  let d := daysSinceEpoch year + daysBefore (month - 1)
  let d := if isLeap year && decide (month ≥ 3) then d + 1 else d
  ⟨d + (day - 1)⟩

/-- The year of a day number, as `Time.Year` reports it: an estimate from the
mean year length, corrected by at most one. -/
def yearOf (n : Int) : Int :=
  let q := (400 * (n + 719528)) / 146097
  if daysSinceEpoch (q + 1) ≤ n then q + 1
  else if n < daysSinceEpoch q then q - 1
  else q

/-- Go `Time.Year`. -/
def Time.Year (t : Time) : Int := yearOf t.days

/-- Go `Time.YearDay`, counted from 0. -/
def Time.yday (t : Time) : Int := t.days - daysSinceEpoch t.Year

/-- The month search of Go's `Time.date` on a day of a non-leap year (from 0):
the month is estimated as `day / 31` and corrected by at most one. -/
def monthSearch (day : Int) : Int × Int :=
  let month := day / 31
  let stop := daysBefore (month + 1)
  if day ≥ stop then (month + 2, day - stop + 1)
  else (month + 1, day - daysBefore month + 1)

/-- The month and day of the month of day `yday` (from 0) of `year`, as in
Go's `Time.date`: the leap day is answered directly, later days of a leap year
are shifted down by one, and the month is then searched as in a non-leap
year. -/
def monthDay (year yday : Int) : Int × Int :=
  if isLeap year && decide (yday = 59) then (2, 29)
  else monthSearch (if isLeap year && decide (yday > 59) then yday - 1 else yday)

/-- Go `Time.Month`, as a number 1..12. -/
def Time.Month (t : Time) : Int := (monthDay t.Year t.yday).1

/-- Go `Time.Day`. -/
def Time.Day (t : Time) : Int := (monthDay t.Year t.yday).2

/-- Go `Time.Weekday`: Sunday = 0, ..., Saturday = 6.  Unix day 0 was a
Thursday. -/
def Time.Weekday (t : Time) : Int := (t.days + 4) % 7

/-- Go `Time.After`. -/
def Time.After (t u : Time) : Bool := decide (u.days < t.days)

/-- Go `Time.Before`. -/
def Time.Before (t u : Time) : Bool := decide (t.days < u.days)

/-- Go `Time.AddDate`: the civil date is shifted field by field and handed to
`Date`, which normalises it. -/
def Time.AddDate (t : Time) (years months days : Int) : Time :=
  Date (t.Year + years) (t.Month + months) (t.Day + days)

/-- Nanoseconds in a day. -/
def nsPerDay : Int := 86400000000000

/-- Go `maxDuration` = `1<<63 - 1` nanoseconds. -/
def maxDuration : Int := 9223372036854775807

/-- Go `minDuration` = `-1 << 63` nanoseconds. -/
def minDuration : Int := -9223372036854775808

/-- Go `Time.Sub`: the difference in nanoseconds; when it does not fit a
`Duration` (an `int64`), the maximum or minimum duration is returned. -/
def Time.Sub (t u : Time) : Int :=
  let d := (t.days - u.days) * nsPerDay
  if d > maxDuration then maxDuration
  else if d < minDuration then minDuration
  else d

/-- The Go expression `int(diff.Hours() / 24)`.  `Hours` is a `float64`; for
the durations that arise between two midnights (whole days up to 106751 of
them, all exactly representable, and the two saturation values, whose quotient
is ±106751.99) the conversion is the quotient truncated toward zero. -/
def totalDaysOf (diff : Int) : Int := Int.tdiv diff nsPerDay

/-- The character `'0' + u % 10` of Go's digit loops. -/
def digitChar (u : Nat) : Char :=
  match u % 10 with
  | 0 => '0'
  | 1 => '1'
  | 2 => '2'
  | 3 => '3'
  | 4 => '4'
  | 5 => '5'
  | 6 => '6'
  | 7 => '7'
  | 8 => '8'
  | _ => '9'

/-- All decimal digits of `u`, most significant first, on top of `acc`; `fuel`
bounds the number of digits. -/
def digitsAux : Nat → Nat → List Char → List Char
  | 0, _, acc => acc
  | fuel + 1, u, acc =>
    if u < 10 then digitChar u :: acc
    else digitsAux fuel (u / 10) (digitChar u :: acc)

/-- Go `time.appendInt`: the sign, then the decimal digits zero-padded to
`width`. -/
def appendInt (x : Int) (width : Nat) : List Char :=
  let u := x.natAbs
  let sign : List Char := if x < 0 then ['-'] else []
  if width = 2 ∧ u < 100 then
    sign ++ [digitChar (u / 10), digitChar u]
  else if width = 4 ∧ u < 10000 then
    sign ++ [digitChar (u / 1000), digitChar (u / 100), digitChar (u / 10), digitChar u]
  else
    let ds := digitsAux (u + 1) u []
    sign ++ List.replicate (width - ds.length) '0' ++ ds

/-- Go `Time.Format("20060102")`. -/
def Time.Format (t : Time) : List Char :=
  appendInt t.Year 4 ++ appendInt t.Month 2 ++ appendInt t.Day 2

/-- Go `time.isDigit` on one character. -/
def isDigit (c : Char) : Bool := decide (48 ≤ c.toNat) && decide (c.toNat ≤ 57)

/-- The value of a decimal digit. -/
def digitVal (c : Char) : Nat := c.toNat - 48

/-- Go `time.Parse("20060102", value)`: exactly four year digits, two month
digits in 01..12 and two day digits in 01..`daysIn`; anything else is an
error. -/
def Parse (value : List Char) : Option Time :=
  match value with
  | [y1, y2, y3, y4, m1, m2, d1, d2] =>
    if [y1, y2, y3, y4, m1, m2, d1, d2].all isDigit then
      let year : Int := digitVal y1 * 1000 + digitVal y2 * 100 + digitVal y3 * 10 + digitVal y4
      let month : Int := digitVal m1 * 10 + digitVal m2
      let day : Int := digitVal d1 * 10 + digitVal d2
      if month < 1 ∨ month > 12 then none
      else if day < 1 ∨ day > daysIn month year then none
      else some (Date year month day)
    else none
  | _ => none

/-! ## Packages `strings` and `strconv` -/

/-- Go `strings.HasPrefix`. -/
def HasPrefix (s pre : List Char) : Bool := pre.isPrefixOf s

/-- Go `strings.TrimPrefix`. -/
def TrimPrefix (s pre : List Char) : List Char :=
  if HasPrefix s pre then s.drop pre.length else s

/-- Go `strings.Split(s, sep)` for a one-character separator: the pieces
between the separators, one more than there are separators (so the empty
string splits into one empty piece). -/
def Split : List Char → Char → List (List Char)
  | [], _ => [[]]
  | c :: cs, sep =>
    if c = sep then [] :: Split cs sep
    else
      match Split cs sep with
      | [] => [[c]]
      | p :: ps => (c :: p) :: ps

/-- The value of a non-empty string of decimal digits. -/
def digitsVal (s : List Char) : Option Nat :=
  if s = [] then none
  else s.foldl (fun acc c => acc.bind fun n =>
    if isDigit c then some (n * 10 + digitVal c) else none) (some 0)

/-- The integer a string denotes in decimal: an optional sign followed by at
least one digit. -/
def parseDecimal (s : List Char) : Option Int :=
  match s with
  | '-' :: rest => (digitsVal rest).map fun n => -(n : Int)
  | '+' :: rest => (digitsVal rest).map fun n => (n : Int)
  | _ => (digitsVal s).map fun n => (n : Int)

/-- Go `strconv.Atoi` with a 64-bit `int`: a syntax error for anything that is
not a signed decimal number, a range error outside `[-2^63, 2^63)`. -/
def Atoi (s : List Char) : Option Int :=
  match parseDecimal s with
  | none => none
  | some n => if -9223372036854775808 ≤ n ∧ n ≤ 9223372036854775807 then some n else none

/-! ## `internal/service/service.go` -/

/-- The error values `NextDate` and its helpers create with `errors.New`. -/
inductive Err where
  /-- Message "неправильный формат даты" -/
  | badDate
  /-- Message "не более 400 дней" -/
  | dailyLimit
  /-- Message "неверный формат дней недели" -/
  | weekdayFormat
  /-- Message "неверный формат правила повторения" -/
  | ruleFormat
  /-- Message "неверный формат дней месяца" -/
  | monthDayFormat
  /-- Message "неверный формат месяцев" -/
  | monthFormat
  /-- Message "не удалось найти подходящий день недели" -/
  | noWeekday
  /-- Message "не удалось найти подходящую дату" -/
  | noMonthDay
deriving DecidableEq, Repr

/-- The three validation loops of `NextDate`
(`for _, s := range strs { v, err := strconv.Atoi(s); if err != nil || bad(v)
{ return "", e }; acc = append(acc, v) }`), with the range test `bad` and the
error `e` of each loop as parameters. -/
def atoiAll (bad : Int → Bool) (e : Err) : List (List Char) → Except Err (List Int)
  | [] => .ok []
  | s :: rest =>
    match Atoi s with
    | none => .error e
    | some v =>
      if bad v then .error e
      else
        match atoiAll bad e rest with
        | .error e1 => .error e1
        | .ok acc => .ok (v :: acc)

/-- The inner loop of `findNextWeekday` over `targetDays` for one offset `i`:
the first target equal to `nextDay` whose candidate `now.AddDate(0, 0, i)` is
after `now` ends the search. -/
def weekdayInner (now : Time) (nextDay i : Int) : List Int → Option Time
  | [] => none
  | targetDay :: rest =>
    if nextDay = targetDay ∧ (now.AddDate 0 0 i).After now = true then
      some (now.AddDate 0 0 i)
    else weekdayInner now nextDay i rest

/-- The outer loop of `findNextWeekday` over the offsets still to be tried.
`(currentDay + i) % 7` has non-negative operands, where Go's remainder and
Lean's agree. -/
def weekdayOuter (now : Time) (currentDay : Int) (targetDays : List Int) :
    List Int → Except Err Time
  | [] => .error .noWeekday
  | i :: rest =>
    let nextDay := (currentDay + i) % 7
    let nextDay := if nextDay = 0 then 7 else nextDay
    match weekdayInner now nextDay i targetDays with
    | some candidate => .ok candidate
    | none => weekdayOuter now currentDay targetDays rest

/-- The offsets `0, 1, ..., 13` of `for i := 0; i < 14; i++`. -/
def weekOffsets : List Int := [0, 1, 2, 3, 4, 5, 6, 7, 8, 9, 10, 11, 12, 13]

/-- Go `findNextWeekday`. -/
def findNextWeekday (now : Time) (targetDays : List Int) : Except Err Time :=
  let currentDay := now.Weekday
  let currentDay := if currentDay = 0 then 7 else currentDay
  weekdayOuter now currentDay targetDays weekOffsets

/-- Go `contains`. -/
def contains : List Int → Int → Bool
  | [], _ => false
  | v :: rest, val => if v = val then true else contains rest val

/-- The innermost loop of `findNextMonthDay`: the dates one month of one year
adds to `variants`, in the order of `targetDays`. -/
def monthVariants (dstart now : Time) (year month : Int) (targetDays : List Int) :
    List Time :=
  let lastDay := (Date year (month + 1) 0).Day
  targetDays.filterMap fun day =>
    let targetDay := if day = -1 then lastDay else if day = -2 then lastDay - 1 else day
    if targetDay < 1 ∨ targetDay > lastDay then none
    else
      let date := Date year month targetDay
      if !date.Before dstart && date.After now then some date else none

/-- The months `1, ..., 12` of `for month := 1; month <= 12; month++`. -/
def monthNumbers : List Int := [1, 2, 3, 4, 5, 6, 7, 8, 9, 10, 11, 12]

/-- The month loop of `findNextMonthDay` for one year. -/
def yearVariants (dstart now : Time) (targetDays targetMonths : List Int) (year : Int) :
    List Time :=
  monthNumbers.flatMap fun month =>
    if targetMonths.length > 0 ∧ contains targetMonths month = false then []
    else monthVariants dstart now year month targetDays

/-- The slice `variants` of `findNextMonthDay` after both year offsets. -/
def variantsOf (dstart : Time) (targetDays targetMonths : List Int) (now : Time) :
    List Time :=
  ([0, 1] : List Int).flatMap fun yearOffset =>
    yearVariants dstart now targetDays targetMonths (dstart.Year + yearOffset)

/-- Go `findNextMonthDay`. -/
def findNextMonthDay (dstart : Time) (targetDays targetMonths : List Int) (now : Time) :
    Except Err Time :=
  match variantsOf dstart targetDays targetMonths now with
  | [] => .error .noMonthDay
  | first :: rest =>
    .ok ((first :: rest).foldl
      (fun minDate date => if date.Before minDate then date else minDate) first)

/-- The string `"delete"` that `NextDate` returns for an empty rule. -/
def deleteMark : List Char := ['d', 'e', 'l', 'e', 't', 'e']

/-- Go `TaskService.NextDate`.  The receiver is not used by the method.  The
quotient `totalDays / days` is taken only when `now` is after `pDate` and
`days` is positive, where Go's truncating division and Lean's agree. -/
def NextDate (now : Time) (dstart rule : List Char) : Except Err (List Char) :=
  match Parse dstart with
  | none => .error .badDate
  | some pDate =>
    if rule = [] then .ok deleteMark
    else if HasPrefix rule ['d', ' '] then
      let daysStr := TrimPrefix rule ['d', ' ']
      match Atoi daysStr with
      | none => .error .dailyLimit
      | some days =>
        if days ≤ 0 ∨ days > 400 then .error .dailyLimit
        else if now.After pDate then
          let diff := now.Sub pDate
          let totalDays := totalDaysOf diff
          let steps := totalDays / days + 1
          .ok (pDate.AddDate 0 0 (steps * days)).Format
        else .ok (pDate.AddDate 0 0 days).Format
    else if rule = ['y'] then
      if pDate.After now then .ok (pDate.AddDate 1 0 0).Format
      else
        let yearsDiff := now.Year - pDate.Year
        let pDate := pDate.AddDate yearsDiff 0 0
        let pDate := if !pDate.After now then pDate.AddDate 1 0 0 else pDate
        .ok pDate.Format
    else if HasPrefix rule ['w', ' '] then
      let daysStr := TrimPrefix rule ['w', ' ']
      let dayNumbers := Split daysStr ','
      match atoiAll (fun dayNum => decide (dayNum < 1 ∨ dayNum > 7)) .weekdayFormat
          dayNumbers with
      | .error e => .error e
      | .ok targetDays =>
        match findNextWeekday now targetDays with
        | .error e => .error e
        | .ok res => .ok res.Format
    else if HasPrefix rule ['m', ' '] then
      let rest := TrimPrefix rule ['m', ' ']
      let parts := Split rest ' '
      if parts.length = 0 ∨ parts.length > 2 then .error .ruleFormat
      else
        match atoiAll (fun day => decide (day < -2 ∨ day = 0 ∨ day > 31)) .monthDayFormat
            (Split (parts.headD []) ',') with
        | .error e => .error e
        | .ok targetDays =>
          match (if parts.length = 2 then
              atoiAll (fun month => decide (month < 1 ∨ month > 12)) .monthFormat
                (Split (parts.getD 1 []) ',')
            else .ok []) with
          | .error e => .error e
          | .ok targetMonths =>
            match findNextMonthDay pDate targetDays targetMonths now with
            | .error e => .error e
            | .ok res => .ok res.Format
    else .error .ruleFormat

/-! ## Notions used to state the properties -/

/-- The length of a year in days. -/
def yearLen (year : Int) : Int := if isLeap year then 366 else 365

/-- The day of the year (from 0) of a civil date, as `Date` adds it up. -/
def ydayOf (year month day : Int) : Int :=
  daysBefore (month - 1) + (if isLeap year && decide (month ≥ 3) then 1 else 0) + (day - 1)

/-- The weekday of a time in the numbering of the rules: Monday = 1, ...,
Sunday = 7. -/
def isoWeekday (t : Time) : Int := if t.Weekday = 0 then 7 else t.Weekday

/-- The day of the month a rule value `v` stands for in a month of `lastDay`
days: `-1` is the last day, `-2` the day before it. -/
def resolveDay (v lastDay : Int) : Int :=
  if v = -1 then lastDay else if v = -2 then lastDay - 1 else v

/-- Membership of `t` in the candidate set of the month-day rule as the
specification describes it: a date of the year of `dstart` or the next, in a
listed month (any month when none is listed), on a listed day that exists in
that month, not before `dstart` and after `now`. -/
def isCandidate (dstart now : Time) (targetDays targetMonths : List Int) (t : Time) : Prop :=
  ∃ y m v : Int, (y = dstart.Year ∨ y = dstart.Year + 1) ∧ (1 ≤ m ∧ m ≤ 12) ∧
    (targetMonths ≠ [] → m ∈ targetMonths) ∧ v ∈ targetDays ∧
    1 ≤ resolveDay v (daysIn m y) ∧ resolveDay v (daysIn m y) ≤ daysIn m y ∧
    t = Date y m (resolveDay v (daysIn m y)) ∧ dstart.days ≤ t.days ∧ now.days < t.days

/-- The text after `"m "` is a well-formed month-day rule that denotes the days
`targetDays` and the months `targetMonths`: one or two space-separated groups of
comma-separated numerals, days in `{-2, -1, 1..31}`, months in `1..12`; with one
group no month is listed. -/
def MonthRule (rest : List Char) (targetDays targetMonths : List Int) : Prop :=
  (∀ v ∈ targetDays, -2 ≤ v ∧ v ≤ 31 ∧ v ≠ 0) ∧ (∀ m ∈ targetMonths, 1 ≤ m ∧ m ≤ 12) ∧
  ((∃ dp, Split rest ' ' = [dp] ∧
      List.Forall₂ (fun piece d => Atoi piece = some d) (Split dp ',') targetDays ∧
      targetMonths = []) ∨
   (∃ dp mp, Split rest ' ' = [dp, mp] ∧
      List.Forall₂ (fun piece d => Atoi piece = some d) (Split dp ',') targetDays ∧
      List.Forall₂ (fun piece d => Atoi piece = some d) (Split mp ',') targetMonths))

/-! ## Task life cycle: `Create` and `Update` -/

/-- Go's `<` on strings.  Go compares the bytes of the two strings
lexicographically; on UTF-8 text that is the lexicographic order of the code
points, and a proper initial segment comes first. -/
def strLess : List Char → List Char → Bool
  | _, [] => false
  | [], _ :: _ => true
  | a :: as, b :: bs =>
    if a.toNat < b.toNat then true
    else if b.toNat < a.toNat then false
    else strLess as bs

/-- Modelled from the spec: the declaration of `domain.Task` is not among the
sources.  The specification speaks of a task's title, stored date and repeat
rule; these are the fields `service.go` and `api.go` read and write, all Go
strings. -/
structure Task where
  ID : List Char
  Date : List Char
  Title : List Char
  Repeat : List Char
deriving DecidableEq, Repr

/-- The error values of `internal/domain/errors.go`. -/
inductive DomainErr where
  /-- Message "некорректный id" -/
  | ErrID
  /-- Message "не указан заголовок задачи" -/
  | ErrBadTitle
  /-- Message "неправильный формат даты" -/
  | ErrDate
  /-- Message "внутренняя ошибка сервера" -/
  | ErrInternalServer
deriving DecidableEq, Repr

/-- The Go `error` values that `Create` and `Update` store in
`CustomError.ErrStorage`: the error of `time.Parse`, an error of `NextDate`, or
an error of the repository, whose errors are of a type `ε` left open. -/
inductive Cause (ε : Type) where
  | parse
  | engine (e : Err)
  | storage (e : ε)
deriving DecidableEq, Repr

/-- Go `domain.CustomError`; a nil `ErrStorage` is `none`. -/
structure CustomError (ε : Type) where
  Code : Int
  Err : DomainErr
  ErrStorage : Option (Cause ε)
deriving DecidableEq, Repr

/-- Go `domain.NewCustomError`. -/
def NewCustomError {ε : Type} (code : Int) (err : DomainErr) (errStorage : Option (Cause ε)) :
    CustomError ε :=
  { Code := code, Err := err, ErrStorage := errStorage }

/-- Go `TaskService.Create`.  The task is passed by pointer and changed in
place: the first component of the result is the task as the method leaves it,
the second is the returned `(int64, *CustomError)`.  The two readings of
`time.Now()` are the parameters `now` and `now2`, taken at midnight UTC like
every time of this development; `createTask` is `s.repo.CreateTask(ctx, _)`.
A failing `NextDate` returns the empty string, which the assignment stores in
`task.Date`. -/
def Create {ε : Type} (now now2 : Time) (createTask : Task → Except ε Int) (task : Task) :
    Task × Except (CustomError ε) Int :=
  let nowF := now.Format
  if task.Title = [] then (task, .error (NewCustomError 0 .ErrBadTitle none))
  else
    let task := if task.Date = [] then { task with Date := now2.Format } else task
    match Parse task.Date with
    | none => (task, .error (NewCustomError 0 .ErrDate (some .parse)))
    | some date =>
      let task :=
        if task.Repeat = [] ∧ strLess date.Format nowF = true then { task with Date := nowF }
        else task
      if strLess task.Date nowF then
        match NextDate now task.Date task.Repeat with
        | .error e =>
          ({ task with Date := [] },
            .error (NewCustomError 0 .ErrInternalServer (some (.engine e))))
        | .ok next =>
          match createTask { task with Date := next } with
          | .error e =>
            ({ task with Date := next },
              .error (NewCustomError 0 .ErrInternalServer (some (.storage e))))
          | .ok id => ({ task with Date := next }, .ok id)
      else
        match createTask task with
        | .error e => (task, .error (NewCustomError 0 .ErrInternalServer (some (.storage e))))
        | .ok id => (task, .ok id)

/-- Go `TaskService.Update`, with the same conventions as `Create`;
`updateTask` is `s.repo.UpdateTask(ctx, _)`, whose nil error is `none`, and a
nil `*CustomError` result is `none`. -/
def Update {ε : Type} (now now2 : Time) (updateTask : Task → Option ε) (task : Task) :
    Task × Option (CustomError ε) :=
  let nowF := now.Format
  if task.Title = [] then (task, some (NewCustomError 0 .ErrBadTitle none))
  else
    let task := if task.Date = [] then { task with Date := now2.Format } else task
    match Parse task.Date with
    | none => (task, some (NewCustomError 0 .ErrDate (some .parse)))
    | some date =>
      let task :=
        if task.Repeat = [] ∧ strLess date.Format nowF = true then { task with Date := nowF }
        else task
      if strLess task.Date nowF then
        match NextDate now task.Date task.Repeat with
        | .error e =>
          ({ task with Date := [] },
            some (NewCustomError 0 .ErrInternalServer (some (.engine e))))
        | .ok next =>
          match updateTask { task with Date := next } with
          | some e =>
            ({ task with Date := next },
              some (NewCustomError 0 .ErrInternalServer (some (.storage e))))
          | none => ({ task with Date := next }, none)
      else
        match updateTask task with
        | some e => (task, some (NewCustomError 0 .ErrInternalServer (some (.storage e))))
        | none => (task, none)

/-! ## Calendar facts -/

theorem daysSinceEpoch_succ (y : Int) :
    daysSinceEpoch (y + 1) = daysSinceEpoch y + yearLen y := by
  unfold daysSinceEpoch yearLen isLeap
  split <;> simp_all <;> omega

theorem yearLen_pos (y : Int) : 365 ≤ yearLen y ∧ yearLen y ≤ 366 := by
  unfold yearLen; split <;> omega

theorem daysSinceEpoch_bound (y : Int) :
    146097 * y - 400 ≤ 400 * (daysSinceEpoch y + 719528) ∧
    400 * (daysSinceEpoch y + 719528) ≤ 146097 * y + 700 := by
  unfold daysSinceEpoch
  omega

theorem yearOf_bracket (n : Int) :
    daysSinceEpoch (yearOf n) ≤ n ∧ n < daysSinceEpoch (yearOf n + 1) := by
  have h1 := daysSinceEpoch_bound ((400 * (n + 719528)) / 146097 - 1)
  have h2 := daysSinceEpoch_bound ((400 * (n + 719528)) / 146097 + 2)
  have s0 := daysSinceEpoch_succ ((400 * (n + 719528)) / 146097 - 1)
  have s1 := daysSinceEpoch_succ ((400 * (n + 719528)) / 146097)
  have s2 := daysSinceEpoch_succ ((400 * (n + 719528)) / 146097 + 1)
  have hq1 : 146097 * ((400 * (n + 719528)) / 146097) ≤ 400 * (n + 719528) := by omega
  have hq2 : 400 * (n + 719528) < 146097 * ((400 * (n + 719528)) / 146097) + 146097 := by
    omega
  unfold yearOf
  generalize (400 * (n + 719528)) / 146097 = q at *
  rw [show q - 1 + 1 = q by ring] at s0
  rw [show q + 1 + 1 = q + 2 by ring] at s2
  have e0 := yearLen_pos (q - 1)
  have e1 := yearLen_pos q
  have e2 := yearLen_pos (q + 1)
  generalize yearLen (q - 1) = l0 at *
  generalize yearLen q = l1 at *
  generalize yearLen (q + 1) = l2 at *
  simp only []
  split_ifs with c1 c2
  · rw [show q + 1 + 1 = q + 2 by ring]; omega
  · rw [show q - 1 + 1 = q by ring]; omega
  · omega

theorem daysSinceEpoch_mono_nat (y : Int) (k : Nat) :
    daysSinceEpoch y + 365 * k ≤ daysSinceEpoch (y + k) := by
  induction k with
  | zero => simp
  | succ k ih =>
    have h := daysSinceEpoch_succ (y + k)
    have l := yearLen_pos (y + k)
    have e : y + ((k + 1 : Nat) : Int) = y + k + 1 := by push_cast; ring
    rw [e, h]; push_cast; omega

theorem daysSinceEpoch_le {y z : Int} (h : y ≤ z) :
    daysSinceEpoch y + 365 * (z - y) ≤ daysSinceEpoch z := by
  obtain ⟨k, hk⟩ := Int.le.dest h
  have := daysSinceEpoch_mono_nat y k
  rw [← hk]; rw [show y + (k : Int) - y = k by ring]; exact this

theorem year_unique {n y z : Int}
    (hy : daysSinceEpoch y ≤ n ∧ n < daysSinceEpoch (y + 1))
    (hz : daysSinceEpoch z ≤ n ∧ n < daysSinceEpoch (z + 1)) : y = z := by
  by_contra hne
  rcases lt_or_gt_of_ne hne with h | h
  · have := daysSinceEpoch_le (show y + 1 ≤ z by omega); omega
  · have := daysSinceEpoch_le (show z + 1 ≤ y by omega); omega

theorem yearOf_eq {n y : Int}
    (hy : daysSinceEpoch y ≤ n ∧ n < daysSinceEpoch (y + 1)) : yearOf n = y :=
  year_unique (yearOf_bracket n) hy

theorem ydayOf_bounds {y m d : Int} (hm : 1 ≤ m ∧ m ≤ 12) (hd : 1 ≤ d ∧ d ≤ daysIn m y) :
    0 ≤ ydayOf y m d ∧ ydayOf y m d < yearLen y := by
  obtain ⟨hm1, hm2⟩ := hm
  unfold ydayOf yearLen
  unfold daysIn at hd
  interval_cases m <;> cases hl : isLeap y <;> simp [daysBefore, hl] at hd ⊢ <;> omega

theorem monthSearch_spec {day m d : Int} (h0 : 0 ≤ day) (h1 : day < 365)
    (h : monthSearch day = (m, d)) :
    1 ≤ m ∧ m ≤ 12 ∧ 1 ≤ d ∧ d ≤ daysBefore m - daysBefore (m - 1) ∧
    daysBefore (m - 1) + d - 1 = day := by
  have hq0 : 0 ≤ day / 31 := by omega
  have hq1 : day / 31 ≤ 11 := by omega
  have hq2 : 31 * (day / 31) ≤ day ∧ day < 31 * (day / 31) + 31 := by omega
  unfold monthSearch at h
  generalize day / 31 = q at *
  interval_cases q <;> norm_num [daysBefore] at h <;> split_ifs at h <;>
    obtain ⟨rfl, rfl⟩ := h <;> norm_num [daysBefore] <;> omega

theorem monthDay_spec {y yd m d : Int} (h0 : 0 ≤ yd) (h1 : yd < yearLen y)
    (h : monthDay y yd = (m, d)) :
    1 ≤ m ∧ m ≤ 12 ∧ 1 ≤ d ∧ d ≤ daysIn m y ∧ ydayOf y m d = yd := by
  unfold yearLen at h1
  unfold monthDay at h
  unfold ydayOf daysIn
  cases hl : isLeap y <;> simp only [hl] at h1 h ⊢
  · simp only [Bool.false_and, if_false, Bool.false_eq_true, and_false] at h1 h ⊢
    have := monthSearch_spec h0 (by omega) h
    omega
  · simp only [Bool.true_and, if_true, and_true, decide_eq_true_eq] at h1 h ⊢
    by_cases h59 : yd = 59
    · subst h59; simp at h; obtain ⟨rfl, rfl⟩ := h; norm_num [daysBefore]
    · simp only [h59, if_false] at h
      by_cases hgt : yd > 59
      · simp only [hgt, if_true] at h
        obtain ⟨m1, m2, d1, d2, e⟩ := monthSearch_spec (by omega) (by omega) h
        interval_cases m <;> norm_num [daysBefore] at d2 e ⊢ <;> omega
      · simp only [hgt, if_false] at h
        obtain ⟨m1, m2, d1, d2, e⟩ := monthSearch_spec (by omega) (by omega) h
        interval_cases m <;> norm_num [daysBefore] at d2 e ⊢ <;> omega

theorem Date_eq {y m d : Int} (hm : 1 ≤ m ∧ m ≤ 12) :
    Date y m d = ⟨daysSinceEpoch y + ydayOf y m d⟩ := by
  have e1 : (m - 1) / 12 = 0 := by omega
  have e2 : (m - 1) % 12 = m - 1 := by omega
  unfold Date ydayOf
  simp only [e1, e2, add_zero, sub_add_cancel]
  split <;> simp <;> ring

theorem Time.yday_bounds (t : Time) : 0 ≤ t.yday ∧ t.yday < yearLen t.Year := by
  have b := yearOf_bracket t.days
  have s := daysSinceEpoch_succ (yearOf t.days)
  unfold Time.yday Time.Year
  omega

theorem Time.civil_valid (t : Time) :
    1 ≤ t.Month ∧ t.Month ≤ 12 ∧ 1 ≤ t.Day ∧ t.Day ≤ daysIn t.Month t.Year := by
  obtain ⟨b0, b1⟩ := t.yday_bounds
  obtain ⟨h1, h2, h3, h4, _⟩ := monthDay_spec (m := t.Month) (d := t.Day) b0 b1 rfl
  exact ⟨h1, h2, h3, h4⟩

/-- Rebuilding a time from its own civil date gives the time back. -/
theorem Date_civil (t : Time) : Date t.Year t.Month t.Day = t := by
  obtain ⟨b0, b1⟩ := t.yday_bounds
  obtain ⟨h1, h2, _, _, h5⟩ := monthDay_spec (m := t.Month) (d := t.Day) b0 b1 rfl
  rw [Date_eq ⟨h1, h2⟩, h5]
  unfold Time.yday
  cases t; simp

theorem Date_bracket {y m d : Int} (hm : 1 ≤ m ∧ m ≤ 12) (hd : 1 ≤ d ∧ d ≤ daysIn m y) :
    daysSinceEpoch y ≤ (Date y m d).days ∧ (Date y m d).days < daysSinceEpoch (y + 1) := by
  have b := ydayOf_bounds hm hd
  rw [Date_eq hm, daysSinceEpoch_succ]
  simp only
  omega

/-- The year of a valid civil date. -/
theorem Year_Date {y m d : Int} (hm : 1 ≤ m ∧ m ≤ 12) (hd : 1 ≤ d ∧ d ≤ daysIn m y) :
    (Date y m d).Year = y :=
  yearOf_eq (Date_bracket hm hd)

theorem daysBefore_mono {a b : Int} (ha : 1 ≤ a) (hb : b ≤ 11) (h : a ≤ b) :
    daysBefore a ≤ daysBefore b := by
  have ha2 : a ≤ 11 := by omega
  have hb2 : 1 ≤ b := by omega
  interval_cases a <;> interval_cases b <;> first | omega | decide

theorem ydayOf_range {y m d : Int} (hm : 1 ≤ m ∧ m ≤ 12) (hd : 1 ≤ d ∧ d ≤ daysIn m y) :
    daysBefore (m - 1) + (if isLeap y && decide (m ≥ 3) then 1 else 0) ≤ ydayOf y m d ∧
    ydayOf y m d < daysBefore m + (if isLeap y && decide (m ≥ 2) then 1 else 0) := by
  unfold ydayOf
  unfold daysIn at hd
  have e1 : daysBefore 1 = 31 := by rfl
  have e2 : daysBefore 2 = 59 := by rfl
  cases hl : isLeap y <;> simp only [hl] at hd ⊢
  · simp at hd ⊢; omega
  · by_cases h2 : m = 2
    · subst h2; simp at hd ⊢; rw [e1, e2]; omega
    · simp [h2] at hd ⊢; split_ifs <;> omega

theorem ydayOf_lt_of_month_lt {y m d m1 d1 : Int} (hm : 1 ≤ m ∧ m ≤ 12)
    (hd : 1 ≤ d ∧ d ≤ daysIn m y) (hm1 : 1 ≤ m1 ∧ m1 ≤ 12) (hd1 : 1 ≤ d1 ∧ d1 ≤ daysIn m1 y)
    (h : m < m1) : ydayOf y m d < ydayOf y m1 d1 := by
  have r := (ydayOf_range hm hd).2
  have r1 := (ydayOf_range hm1 hd1).1
  have mo := daysBefore_mono (a := m) (b := m1 - 1) (by omega) (by omega) (by omega)
  cases hl : isLeap y <;> simp only [hl] at r r1
  · simp at r r1; omega
  · simp at r r1; split_ifs at r r1 <;> omega

theorem ydayOf_inj {y m d m1 d1 : Int} (hm : 1 ≤ m ∧ m ≤ 12) (hd : 1 ≤ d ∧ d ≤ daysIn m y)
    (hm1 : 1 ≤ m1 ∧ m1 ≤ 12) (hd1 : 1 ≤ d1 ∧ d1 ≤ daysIn m1 y)
    (h : ydayOf y m d = ydayOf y m1 d1) : m = m1 ∧ d = d1 := by
  rcases lt_trichotomy m m1 with c | c | c
  · have := ydayOf_lt_of_month_lt hm hd hm1 hd1 c; omega
  · subst c; unfold ydayOf at h; exact ⟨rfl, by omega⟩
  · have := ydayOf_lt_of_month_lt hm1 hd1 hm hd c; omega

/-- The month and day of a valid civil date. -/
theorem Month_Day_Date {y m d : Int} (hm : 1 ≤ m ∧ m ≤ 12) (hd : 1 ≤ d ∧ d ≤ daysIn m y) :
    (Date y m d).Month = m ∧ (Date y m d).Day = d := by
  have hy := Year_Date hm hd
  have eT : (Date y m d).days = daysSinceEpoch y + ydayOf y m d := by rw [Date_eq hm]
  generalize Date y m d = T at *
  obtain ⟨c1, c2, c3, c4⟩ := T.civil_valid
  have e := Date_civil T
  rw [hy] at c4 e
  rw [Date_eq ⟨c1, c2⟩] at e
  have e2 := congrArg Time.days e
  simp only at e2
  exact ydayOf_inj ⟨c1, c2⟩ ⟨c3, c4⟩ hm hd (by omega)

/-- Go `AddDate(0, 0, k)` moves a time by `k` days. -/
theorem AddDate_days (t : Time) (k : Int) : t.AddDate 0 0 k = ⟨t.days + k⟩ := by
  obtain ⟨h1, h2, _, _⟩ := t.civil_valid
  have e := congrArg Time.days (Date_civil t)
  unfold Time.AddDate
  rw [Date_eq ⟨h1, h2⟩] at e
  rw [add_zero, add_zero, Date_eq ⟨h1, h2⟩]
  simp only [Time.mk.injEq] at e ⊢
  unfold ydayOf at e ⊢
  omega

theorem daysIn_bounds {m : Int} (y : Int) (hm : 1 ≤ m ∧ m ≤ 12) :
    28 ≤ daysIn m y ∧ daysIn m y ≤ 31 := by
  obtain ⟨h1, h2⟩ := hm
  unfold daysIn
  interval_cases m <;> cases isLeap y <;> norm_num [daysBefore]

theorem daysIn_feb (y : Int) : daysIn 2 y = if isLeap y then 29 else 28 := by
  unfold daysIn
  cases isLeap y <;> norm_num [daysBefore]

/-- Outside February the length of a month does not depend on the year. -/
theorem daysIn_year {m : Int} (y z : Int) (hm : m ≠ 2) : daysIn m y = daysIn m z := by
  unfold daysIn
  simp [hm]

/-- A day of month that is valid in one year and is not February 29 is valid
in every year. -/
theorem valid_any_year {y m d : Int} (z : Int) (hm : 1 ≤ m ∧ m ≤ 12)
    (hd : 1 ≤ d ∧ d ≤ daysIn m y) (h29 : ¬(m = 2 ∧ d = 29)) : 1 ≤ d ∧ d ≤ daysIn m z := by
  by_cases h2 : m = 2
  · subst h2
    rw [daysIn_feb] at hd ⊢
    have : d ≠ 29 := fun h => h29 ⟨rfl, h⟩
    split at hd <;> split <;> omega
  · rw [daysIn_year z y h2]; exact hd

/-- Day 0 of the next month is the last day of the month: the value the code
calls `lastDay` is the length of the month. -/
theorem lastDay_eq {y m : Int} (hm : 1 ≤ m ∧ m ≤ 12) : (Date y (m + 1) 0).Day = daysIn m y := by
  have hb := daysIn_bounds y hm
  have e : Date y (m + 1) 0 = Date y m (daysIn m y) := by
    rw [Date_eq hm]
    by_cases h12 : m = 12
    · subst h12
      have s := daysSinceEpoch_succ y
      unfold Date
      unfold yearLen at s
      unfold ydayOf daysIn
      cases hl : isLeap y <;> simp only [hl] at s ⊢ <;> norm_num [daysBefore] <;>
        simp at s <;> omega
    · rw [Date_eq (by omega)]
      obtain ⟨h1, h2⟩ := hm
      unfold ydayOf daysIn
      simp only [Time.mk.injEq]
      interval_cases m <;> cases hl : isLeap y <;> norm_num [daysBefore]
  rw [e]
  exact (Month_Day_Date hm (by omega)).2

/-- Valid dates of an earlier year come before valid dates of a later year. -/
theorem Date_lt_of_year_lt {y m d z m1 d1 : Int} (hm : 1 ≤ m ∧ m ≤ 12)
    (hd : 1 ≤ d ∧ d ≤ daysIn m y) (hm1 : 1 ≤ m1 ∧ m1 ≤ 12) (hd1 : 1 ≤ d1 ∧ d1 ≤ daysIn m1 z)
    (h : y < z) : (Date y m d).days < (Date z m1 d1).days := by
  have b := Date_bracket hm hd
  have b1 := Date_bracket hm1 hd1
  have := daysSinceEpoch_le (show y + 1 ≤ z by omega)
  omega

/-- A time lies between January 1 of its year and January 1 of the next. -/
theorem Time.year_bracket (t : Time) :
    daysSinceEpoch t.Year ≤ t.days ∧ t.days < daysSinceEpoch (t.Year + 1) :=
  yearOf_bracket t.days

theorem Time.After_iff (t u : Time) : t.After u = true ↔ u.days < t.days := by
  simp [Time.After]

theorem Time.Before_iff (t u : Time) : t.Before u = true ↔ t.days < u.days := by
  simp [Time.Before]

/-- What `time.Parse` accepts: a valid civil date with a year in 0..9999. -/
theorem Parse_valid {s : List Char} {t : Time} (h : Parse s = some t) :
    ∃ y m d, 0 ≤ y ∧ y ≤ 9999 ∧ 1 ≤ m ∧ m ≤ 12 ∧ 1 ≤ d ∧ d ≤ daysIn m y ∧ t = Date y m d := by
  unfold Parse at h
  split at h
  · rename_i y1 y2 y3 y4 m1 m2 d1 d2
    split_ifs at h with hd
    simp only [] at h
    split_ifs at h with hmo hda
    simp only [Option.some.injEq] at h
    simp only [List.all_cons, List.all_nil, Bool.and_true, Bool.and_eq_true, isDigit,
      decide_eq_true_eq] at hd
    refine ⟨_, _, _, ?_, ?_, ?_, ?_, ?_, ?_, h.symm⟩ <;> simp only [digitVal] at hmo hda ⊢ <;>
      omega
  · exact absurd h (by simp)
/-! ## The daily rule -/

/-- The value of `NextDate` on a rule `"d " ++ s` whose `s` is not a number. -/
theorem NextDate_daily_none (now : Time) {pDate : Time} {dstart s : List Char}
    (hp : Parse dstart = some pDate) (ha : Atoi s = none) :
    NextDate now dstart ('d' :: ' ' :: s) = .error .dailyLimit := by
  simp [NextDate, hp, HasPrefix, TrimPrefix, List.isPrefixOf, ha]

/-- The value of `NextDate` on a rule `"d " ++ s` whose `s` is the number `days`. -/
theorem NextDate_daily_some (now : Time) {pDate : Time} {dstart s : List Char} {days : Int}
    (hp : Parse dstart = some pDate) (ha : Atoi s = some days) :
    NextDate now dstart ('d' :: ' ' :: s) =
      if days ≤ 0 ∨ days > 400 then .error .dailyLimit
      else if now.After pDate then
        .ok (pDate.AddDate 0 0 ((totalDaysOf (now.Sub pDate) / days + 1) * days)).Format
      else .ok (pDate.AddDate 0 0 days).Format := by
  simp [NextDate, hp, HasPrefix, TrimPrefix, List.isPrefixOf, ha]

theorem Atoi_of_parseDecimal {s : List Char} {N : Int} (h : parseDecimal s = some N) :
    Atoi s = if -9223372036854775808 ≤ N ∧ N ≤ 9223372036854775807 then some N else none := by
  simp [Atoi, h]

/-- The whole days between two midnights as the code computes them: exact up
to 106751 days, stuck at 106751 beyond (the duration saturates). -/
theorem totalDaysOf_Sub {now pDate : Time} (h : pDate.days < now.days) :
    totalDaysOf (now.Sub pDate) = min (now.days - pDate.days) 106751 := by
  unfold totalDaysOf Time.Sub nsPerDay maxDuration minDuration
  simp only []
  split_ifs with h1 h2
  · rw [min_eq_right (by omega)]; decide
  · omega
  · rw [min_eq_left (by omega), Int.tdiv_eq_ediv (by omega) (by omega)]
    omega

/-- Within the range of a `Duration` the daily rule catches up exactly: the
result is `lastDate + k * N` days for the least `k ≥ 1` that puts it after
`now`. -/
theorem daily_catch_up_within_range (now pDate : Time) (dstart s : List Char) (N : Int)
    (hp : Parse dstart = some pDate) (ha : Atoi s = some N) (hN : 1 ≤ N ∧ N ≤ 400)
    (hr : now.days - pDate.days ≤ 106751) :
    ∃ k : Int, 1 ≤ k ∧
      k = (if now.days ≤ pDate.days then 1 else (now.days - pDate.days) / N + 1) ∧
      NextDate now dstart ('d' :: ' ' :: s) = .ok (Time.mk (pDate.days + k * N)).Format ∧
      now.days < pDate.days + k * N ∧
      ∀ j : Int, 1 ≤ j → now.days < pDate.days + j * N → k ≤ j := by
  have hN0 : (0 : Int) < N := by omega
  rw [NextDate_daily_some now hp ha, if_neg (show ¬(N ≤ 0 ∨ N > 400) by omega)]
  by_cases hlt : pDate.days < now.days
  · have hA : now.After pDate = true := (now.After_iff pDate).2 hlt
    rw [if_pos hA, totalDaysOf_Sub hlt, min_eq_left hr, AddDate_days,
      if_neg (show ¬(now.days ≤ pDate.days) by omega)]
    have hq : 0 ≤ (now.days - pDate.days) / N := Int.ediv_nonneg (by omega) (by omega)
    have hm := Int.lt_ediv_add_one_mul_self (now.days - pDate.days) hN0
    refine ⟨_, by omega, rfl, rfl, by omega, ?_⟩
    intro j _ hj
    have : (now.days - pDate.days) / N < j := Int.ediv_lt_of_lt_mul hN0 (by omega)
    omega
  · have hA : ¬ now.After pDate = true := fun h => hlt ((now.After_iff pDate).1 h)
    rw [if_neg hA, AddDate_days, if_pos (show now.days ≤ pDate.days by omega)]
    refine ⟨1, le_refl _, rfl, by rw [one_mul], by omega, fun j hj _ => hj⟩

/-- Beyond the range of a `Duration` (more than 106751 days, about 292 years,
between `lastDate` and `now`) the daily rule steps from the saturated
difference, whatever `now` is. -/
theorem daily_saturated (now pDate : Time) (dstart s : List Char) (N : Int)
    (hp : Parse dstart = some pDate) (ha : Atoi s = some N) (hN : 1 ≤ N ∧ N ≤ 400)
    (hr : 106751 < now.days - pDate.days) :
    NextDate now dstart ('d' :: ' ' :: s) =
      .ok (Time.mk (pDate.days + (106751 / N + 1) * N)).Format := by
  have hlt : pDate.days < now.days := by omega
  have hA : now.After pDate = true := (now.After_iff pDate).2 hlt
  rw [NextDate_daily_some now hp ha, if_neg (show ¬(N ≤ 0 ∨ N > 400) by omega), if_pos hA,
    totalDaysOf_Sub hlt,
    min_eq_right (by omega), AddDate_days]

/-- C9 (daily bound rejection).  For a valid `lastDate` and a rule `"d " ++ s`:
when `s` is the decimal numeral of an integer `N`, `NextDate` fails if and only
if `N ≤ 0` or `N > 400` (the error is the 400-day one) and it returns a date if
and only if `1 ≤ N ≤ 400`; when `s` is not a decimal numeral it fails too. -/
theorem daily_bound_rejection (now pDate : Time) (dstart s : List Char)
    (hp : Parse dstart = some pDate) :
    (∀ N : Int, parseDecimal s = some N →
      ((∃ e, NextDate now dstart ('d' :: ' ' :: s) = .error e) ↔ (N ≤ 0 ∨ N > 400)) ∧
      (NextDate now dstart ('d' :: ' ' :: s) = .error .dailyLimit ↔ (N ≤ 0 ∨ N > 400)) ∧
      ((∃ t : Time, NextDate now dstart ('d' :: ' ' :: s) = .ok t.Format) ↔
        (1 ≤ N ∧ N ≤ 400))) ∧
    (parseDecimal s = none → NextDate now dstart ('d' :: ' ' :: s) = .error .dailyLimit) := by
  constructor
  · intro N hN
    have hA := Atoi_of_parseDecimal hN
    by_cases hr : -9223372036854775808 ≤ N ∧ N ≤ 9223372036854775807
    · rw [if_pos hr] at hA
      rw [NextDate_daily_some now hp hA]
      by_cases hb : N ≤ 0 ∨ N > 400
      · rw [if_pos hb]
        simp only [Except.error.injEq, exists_eq', true_iff, hb, reduceCtorEq, exists_false,
          false_iff, not_and, not_le, true_and]
        omega
      · rw [if_neg hb]
        refine ⟨?_, ?_, ?_⟩
        · split_ifs <;> simp [hb]
        · split_ifs <;> simp [hb]
        · constructor
          · intro _; omega
          · intro _; split_ifs <;> exact ⟨_, rfl⟩
    · rw [if_neg hr] at hA
      rw [NextDate_daily_none now hp hA]
      simp only [Except.error.injEq, exists_eq', true_iff, reduceCtorEq, exists_false,
        false_iff, not_and, not_le]
      omega
  · intro hN
    exact NextDate_daily_none now hp (by simp [Atoi, hN])

/-- C9, the stated instances: `"d 401"` and `"d 0"` are rejected, `"d 1"` and
`"d 400"` are accepted. -/
theorem daily_bound_rejection_witness :
    Parse "20240113".toList = some (Date 2024 1 13) ∧
    (∃ e, NextDate (Date 2024 1 26) "20240113".toList "d 401".toList = .error e) ∧
    (∃ e, NextDate (Date 2024 1 26) "20240113".toList "d 0".toList = .error e) ∧
    (∃ t : Time, NextDate (Date 2024 1 26) "20240113".toList "d 1".toList = .ok t.Format) ∧
    (∃ t : Time, NextDate (Date 2024 1 26) "20240113".toList "d 400".toList = .ok t.Format) :=
  ⟨rfl,
   (((daily_bound_rejection (Date 2024 1 26) (Date 2024 1 13) "20240113".toList "401".toList
      rfl).1 401 rfl).1).2 (Or.inr (by decide)),
   (((daily_bound_rejection (Date 2024 1 26) (Date 2024 1 13) "20240113".toList "0".toList
      rfl).1 0 rfl).1).2 (Or.inl (by decide)),
   (((daily_bound_rejection (Date 2024 1 26) (Date 2024 1 13) "20240113".toList "1".toList
      rfl).1 1 rfl).2.2).2 ⟨by decide, by decide⟩,
   (((daily_bound_rejection (Date 2024 1 26) (Date 2024 1 13) "20240113".toList "400".toList
      rfl).1 400 rfl).2.2).2 ⟨by decide, by decide⟩⟩
/-! ## The weekday rule -/

/-- The validation loops succeed exactly when every piece is a number in
range, and then return those numbers in order. -/
theorem atoiAll_ok_iff (bad : Int → Bool) (e : Err) (strs : List (List Char))
    (vs : List Int) :
    atoiAll bad e strs = .ok vs ↔
      List.Forall₂ (fun s v => Atoi s = some v ∧ bad v = false) strs vs := by
  induction strs generalizing vs with
  | nil =>
    cases vs <;> simp [atoiAll]
  | cons s rest ih =>
    cases vs with
    | nil =>
      simp only [List.forall₂_nil_right_iff, reduceCtorEq, iff_false]
      unfold atoiAll
      split
      · simp
      · split_ifs
        · simp
        · split <;> simp
    | cons w ws =>
      rw [List.forall₂_cons, ← ih ws]
      simp only [atoiAll]
      cases ha : Atoi s with
      | none => simp
      | some v =>
        simp only [Option.some.injEq]
        cases hb : bad v with
        | true =>
          simp only [if_true, reduceCtorEq, false_iff, not_and]
          rintro ⟨rfl, h⟩; rw [hb] at h; exact absurd h (by simp)
        | false =>
          simp only [Bool.false_eq_true, if_false]
          cases hr : atoiAll bad e rest with
          | error e1 => simp
          | ok acc =>
            simp only [Except.ok.injEq, List.cons.injEq]
            constructor
            · rintro ⟨rfl, rfl⟩; exact ⟨⟨rfl, hb⟩, rfl⟩
            · rintro ⟨⟨rfl, _⟩, rfl⟩; exact ⟨rfl, rfl⟩

theorem weekdayInner_eq (now : Time) (nextDay i : Int) (targetDays : List Int) :
    weekdayInner now nextDay i targetDays =
      if nextDay ∈ targetDays ∧ 0 < i then some ⟨now.days + i⟩ else none := by
  induction targetDays with
  | nil => simp [weekdayInner]
  | cons d rest ih =>
    unfold weekdayInner
    rw [ih, AddDate_days]
    simp only [Time.After_iff, List.mem_cons]
    by_cases h1 : nextDay = d <;> by_cases h2 : 0 < i <;> by_cases h3 : nextDay ∈ rest <;>
      simp [h1, h2, h3]

theorem weekdayOuter_cons (now : Time) (cd i : Int) (ds rest : List Int) :
    weekdayOuter now cd ds (i :: rest) =
      if (if (cd + i) % 7 = 0 then 7 else (cd + i) % 7) ∈ ds ∧ 0 < i then
        .ok ⟨now.days + i⟩
      else weekdayOuter now cd ds rest := by
  simp only [weekdayOuter, weekdayInner_eq]
  split_ifs <;> rfl

/-- The weekday the code derives arithmetically for offset `i` is the calendar
weekday of the day `i` days after `now`. -/
theorem nextDay_eq_isoWeekday (now : Time) (i : Int) :
    (if ((if now.Weekday = 0 then 7 else now.Weekday) + i) % 7 = 0 then 7
      else ((if now.Weekday = 0 then 7 else now.Weekday) + i) % 7) =
      isoWeekday ⟨now.days + i⟩ := by
  unfold isoWeekday Time.Weekday
  simp only []
  split_ifs <;> omega

theorem weekdayOuter_first (now : Time) (cd k : Int) (ds L1 L2 : List Int)
    (hL1 : ∀ i ∈ L1, i < k)
    (hmin : ∀ j : Int, 1 ≤ j → j < k → (if (cd + j) % 7 = 0 then 7 else (cd + j) % 7) ∉ ds)
    (hk : (if (cd + k) % 7 = 0 then 7 else (cd + k) % 7) ∈ ds) (hk0 : 0 < k) :
    weekdayOuter now cd ds (L1 ++ k :: L2) = .ok ⟨now.days + k⟩ := by
  induction L1 with
  | nil => rw [List.nil_append, weekdayOuter_cons, if_pos ⟨hk, hk0⟩]
  | cons i rest ih =>
    rw [List.cons_append, weekdayOuter_cons, if_neg, ih (fun j hj => hL1 j (by simp [hj]))]
    rintro ⟨h1, h2⟩
    exact hmin i (by omega) (hL1 i (by simp)) h1

/-- The value of `findNextWeekday` on a non-empty list of weekdays 1..7: the first of the
next seven days whose weekday is listed. -/
theorem findNextWeekday_spec (now : Time) (ds : List Int) (hne : ds ≠ [])
    (hr : ∀ d ∈ ds, 1 ≤ d ∧ d ≤ 7) :
    ∃ k : Int, 1 ≤ k ∧ k ≤ 7 ∧ isoWeekday ⟨now.days + k⟩ ∈ ds ∧
      (∀ j : Int, 1 ≤ j → j < k → isoWeekday ⟨now.days + j⟩ ∉ ds) ∧
      findNextWeekday now ds = .ok ⟨now.days + k⟩ := by
  classical
  obtain ⟨d, hd⟩ := List.exists_mem_of_ne_nil ds hne
  have hdr := hr d hd
  have e0 : isoWeekday ⟨now.days + (((d - isoWeekday now + 6) % 7 + 1).toNat : Int)⟩ = d := by
    unfold isoWeekday Time.Weekday
    simp only []
    split_ifs <;> omega
  have h0 : 1 ≤ ((d - isoWeekday now + 6) % 7 + 1).toNat ∧
      isoWeekday ⟨now.days + (((d - isoWeekday now + 6) % 7 + 1).toNat : Int)⟩ ∈ ds :=
    ⟨by omega, by rw [e0]; exact hd⟩
  have hex : ∃ n : Nat, 1 ≤ n ∧ isoWeekday ⟨now.days + n⟩ ∈ ds := ⟨_, h0⟩
  have hk := Nat.find_spec hex
  have hmin : ∀ j : Nat, j < Nat.find hex → ¬(1 ≤ j ∧ isoWeekday ⟨now.days + j⟩ ∈ ds) :=
    fun j hj => Nat.find_min hex hj
  have hle : Nat.find hex ≤ 7 := le_trans (Nat.find_min' hex h0) (by omega)
  generalize Nat.find hex = K at hk hmin hle
  have hmin2 : ∀ j : Int, 1 ≤ j → j < (K : Int) → isoWeekday ⟨now.days + j⟩ ∉ ds := by
    intro j h1 h2 hj
    have e : j = (j.toNat : Int) := by omega
    rw [e] at hj
    exact hmin j.toNat (by omega) ⟨by omega, hj⟩
  refine ⟨K, by omega, by omega, hk.2, hmin2, ?_⟩
  have hsplit : weekOffsets = weekOffsets.take K ++ (K : Int) :: weekOffsets.drop (K + 1) ∧
      ∀ i ∈ weekOffsets.take K, i < (K : Int) := by
    obtain ⟨hk1, _⟩ := hk
    interval_cases K <;> exact ⟨rfl, by decide⟩
  unfold findNextWeekday
  simp only []
  rw [hsplit.1]
  apply weekdayOuter_first _ _ _ _ _ _ hsplit.2
  · intro j h1 h2
    rw [nextDay_eq_isoWeekday]
    exact hmin2 j h1 h2
  · rw [nextDay_eq_isoWeekday]; exact hk.2
  · omega

theorem Split_ne_nil (s : List Char) (sep : Char) : Split s sep ≠ [] := by
  induction s with
  | nil => simp [Split]
  | cons c cs ih =>
    unfold Split
    split_ifs
    · simp
    · split <;> simp

/-- The value of `NextDate` on a rule `"w " ++ s` whose pieces pass the validation loop. -/
theorem NextDate_weekly (now : Time) {pDate : Time} {dstart s : List Char} {ds : List Int}
    (hp : Parse dstart = some pDate)
    (hs : atoiAll (fun dayNum => decide (dayNum < 1 ∨ dayNum > 7)) .weekdayFormat
      (Split s ',') = .ok ds) :
    NextDate now dstart ('w' :: ' ' :: s) = (findNextWeekday now ds).map Time.Format := by
  have h1 : HasPrefix ('w' :: ' ' :: s) ['d', ' '] = false := by
    simp [HasPrefix, List.isPrefixOf]
  have h2 : HasPrefix ('w' :: ' ' :: s) ['w', ' '] = true := by
    simp [HasPrefix, List.isPrefixOf]
  have h3 : TrimPrefix ('w' :: ' ' :: s) ['w', ' '] = s := by
    simp [TrimPrefix, h2]
  simp only [NextDate, hp, h1, h2, h3, hs, reduceCtorEq, List.cons.injEq, Char.reduceEq,
    and_false, false_and, if_false, if_true, Bool.false_eq_true]
  cases findNextWeekday now ds <;> rfl

/-- The pieces of a rule denote the numbers `ds`, all accepted by the range
test `bad`: what the validation loop needs to return `ds`. -/
theorem atoiAll_of_denotes (bad : Int → Bool) (e : Err) {strs : List (List Char)}
    {ds : List Int} (hs : List.Forall₂ (fun piece d => Atoi piece = some d) strs ds)
    (hr : ∀ d ∈ ds, bad d = false) : atoiAll bad e strs = .ok ds := by
  rw [atoiAll_ok_iff]
  induction hs with
  | nil => exact List.Forall₂.nil
  | cons h _ ih =>
    exact List.Forall₂.cons ⟨h, hr _ (by simp)⟩ (ih fun d hd => hr d (by simp [hd]))

/-- C3 (weekday rule).  For a valid `lastDate`, any `now` and a rule
`"w " ++ s` whose comma-separated pieces are numerals of weekdays `ds`, all in
1..7 (Monday = 1, ..., Sunday = 7), `NextDate` returns the date `now + k` days
for the least `k ≥ 1` such that the calendar weekday of `now + k` days is
listed; that `k` is at most 7. -/
theorem weekday_rule (now pDate : Time) (dstart s : List Char) (ds : List Int)
    (hp : Parse dstart = some pDate)
    (hs : List.Forall₂ (fun piece d => Atoi piece = some d) (Split s ',') ds)
    (hr : ∀ d ∈ ds, 1 ≤ d ∧ d ≤ 7) :
    ∃ k : Int, 1 ≤ k ∧ k ≤ 7 ∧ isoWeekday (now.AddDate 0 0 k) ∈ ds ∧
      (∀ j : Int, 1 ≤ j → j < k → isoWeekday (now.AddDate 0 0 j) ∉ ds) ∧
      NextDate now dstart ('w' :: ' ' :: s) = .ok (now.AddDate 0 0 k).Format := by
  have hne : ds ≠ [] := by
    rintro rfl
    exact Split_ne_nil s ',' (List.forall₂_nil_right_iff.1 hs)
  have ha := atoiAll_of_denotes (fun dayNum => decide (dayNum < 1 ∨ dayNum > 7))
    .weekdayFormat hs (fun d hd => by have := hr d hd; simp; omega)
  obtain ⟨k, h1, h2, h3, h4, h5⟩ := findNextWeekday_spec now ds hne hr
  refine ⟨k, h1, h2, ?_, ?_, ?_⟩
  · rw [AddDate_days]; exact h3
  · intro j hj1 hj2; rw [AddDate_days]; exact h4 j hj1 hj2
  · rw [NextDate_weekly now hp ha, h5, AddDate_days]; rfl

/-- C3, the stated instance: with `now` a Wednesday (2024-01-03) the rule
`"w 1,3"` gives the following Monday, five days later, not `now` itself. -/
theorem weekday_rule_witness :
    isoWeekday (Date 2024 1 3) = 3 ∧
    NextDate (Date 2024 1 3) "20240101".toList "w 1,3".toList = .ok "20240108".toList ∧
    ∃ k : Int, 1 ≤ k ∧ k ≤ 7 ∧ isoWeekday ((Date 2024 1 3).AddDate 0 0 k) ∈ [1, 3] ∧
      (∀ j : Int, 1 ≤ j → j < k → isoWeekday ((Date 2024 1 3).AddDate 0 0 j) ∉ [1, 3]) ∧
      NextDate (Date 2024 1 3) "20240101".toList "w 1,3".toList =
        .ok ((Date 2024 1 3).AddDate 0 0 k).Format :=
  ⟨by decide, by rfl,
   weekday_rule (Date 2024 1 3) (Date 2024 1 1) "20240101".toList "1,3".toList [1, 3] rfl
     (List.Forall₂.cons rfl (List.Forall₂.cons rfl List.Forall₂.nil)) (by decide)⟩
/-! ## The month-day rule -/

theorem contains_iff (arr : List Int) (val : Int) : contains arr val = true ↔ val ∈ arr := by
  induction arr with
  | nil => simp [contains]
  | cons v rest ih =>
    unfold contains
    by_cases h : v = val
    · simp [h]
    · simp only [h, if_false, ih, List.mem_cons]
      constructor
      · exact Or.inr
      · rintro (h1 | h1)
        · exact absurd h1.symm h
        · exact h1

theorem mem_monthNumbers (m : Int) : m ∈ monthNumbers ↔ 1 ≤ m ∧ m ≤ 12 := by
  unfold monthNumbers
  simp only [List.mem_cons, List.mem_singleton, List.not_mem_nil, or_false]
  omega

theorem mem_monthVariants (dstart now t : Time) (y m : Int) (targetDays : List Int)
    (hm : 1 ≤ m ∧ m ≤ 12) :
    t ∈ monthVariants dstart now y m targetDays ↔
      ∃ v ∈ targetDays, 1 ≤ resolveDay v (daysIn m y) ∧ resolveDay v (daysIn m y) ≤ daysIn m y ∧
        t = Date y m (resolveDay v (daysIn m y)) ∧ dstart.days ≤ t.days ∧ now.days < t.days := by
  unfold monthVariants
  simp only [lastDay_eq hm, List.mem_filterMap]
  have key : ∀ v : Int,
      (if (if v = -1 then daysIn m y else if v = -2 then daysIn m y - 1 else v) < 1 ∨
          (if v = -1 then daysIn m y else if v = -2 then daysIn m y - 1 else v) > daysIn m y
        then none
        else if (!(Date y m (if v = -1 then daysIn m y
              else if v = -2 then daysIn m y - 1 else v)).Before dstart &&
            (Date y m (if v = -1 then daysIn m y
              else if v = -2 then daysIn m y - 1 else v)).After now) = true
          then some (Date y m (if v = -1 then daysIn m y
              else if v = -2 then daysIn m y - 1 else v))
          else none) = some t ↔
        (1 ≤ resolveDay v (daysIn m y) ∧ resolveDay v (daysIn m y) ≤ daysIn m y ∧
          t = Date y m (resolveDay v (daysIn m y)) ∧ dstart.days ≤ t.days ∧
          now.days < t.days) := by
    intro v
    change (if resolveDay v (daysIn m y) < 1 ∨ resolveDay v (daysIn m y) > daysIn m y then none
      else if (!(Date y m (resolveDay v (daysIn m y))).Before dstart &&
          (Date y m (resolveDay v (daysIn m y))).After now) = true
        then some (Date y m (resolveDay v (daysIn m y))) else none) = some t ↔ _
    generalize resolveDay v (daysIn m y) = td
    by_cases h1 : td < 1 ∨ td > daysIn m y
    · rw [if_pos h1]
      simp only [reduceCtorEq, false_iff, not_and]
      intro a b; omega
    · rw [if_neg h1]
      by_cases hB : (Date y m td).Before dstart = true
      · have hB2 := (Time.Before_iff _ _).1 hB
        simp only [hB, Bool.not_true, Bool.false_and, Bool.false_eq_true, if_false,
          reduceCtorEq, false_iff, not_and]
        rintro _ _ rfl; omega
      · have hB2 : ¬ (Date y m td).days < dstart.days := fun h => hB ((Time.Before_iff _ _).2 h)
        simp only [Bool.not_eq_true] at hB
        simp only [hB, Bool.not_false, Bool.true_and]
        by_cases hA : (Date y m td).After now = true
        · have hA2 := (Time.After_iff _ _).1 hA
          rw [if_pos hA]
          simp only [Option.some.injEq]
          constructor
          · rintro rfl; exact ⟨by omega, by omega, rfl, by omega, hA2⟩
          · rintro ⟨_, _, rfl, _, _⟩; rfl
        · have hA2 : ¬ now.days < (Date y m td).days := fun h => hA ((Time.After_iff _ _).2 h)
          rw [if_neg hA]
          simp only [reduceCtorEq, false_iff, not_and]
          rintro _ _ rfl; omega
  constructor
  · rintro ⟨v, hv, h⟩
    exact ⟨v, hv, (key v).1 h⟩
  · rintro ⟨v, hv, h⟩
    exact ⟨v, hv, (key v).2 h⟩

theorem mem_yearVariants (dstart now t : Time) (targetDays targetMonths : List Int) (y : Int) :
    t ∈ yearVariants dstart now targetDays targetMonths y ↔
      ∃ m : Int, (1 ≤ m ∧ m ≤ 12) ∧ (targetMonths ≠ [] → m ∈ targetMonths) ∧
        t ∈ monthVariants dstart now y m targetDays := by
  unfold yearVariants
  simp only [List.mem_flatMap, mem_monthNumbers]
  constructor
  · rintro ⟨m, hm, h⟩
    refine ⟨m, hm, ?_⟩
    split_ifs at h with hc
    · simp at h
    · refine ⟨fun hne => ?_, h⟩
      rw [← contains_iff]
      by_contra hcon
      exact hc ⟨List.length_pos.2 hne, by simpa using hcon⟩
  · rintro ⟨m, hm, hmem, h⟩
    refine ⟨m, hm, ?_⟩
    rw [if_neg]
    · exact h
    · rintro ⟨hlen, hc⟩
      have := (contains_iff targetMonths m).2 (hmem (List.length_pos.1 hlen))
      rw [hc] at this; exact absurd this (by simp)

/-- The slice `variants` holds exactly the candidates of the specification. -/
theorem mem_variantsOf (dstart now t : Time) (targetDays targetMonths : List Int) :
    t ∈ variantsOf dstart targetDays targetMonths now ↔
      isCandidate dstart now targetDays targetMonths t := by
  unfold variantsOf isCandidate
  simp only [List.mem_flatMap, List.mem_cons, List.mem_singleton, List.not_mem_nil, or_false,
    mem_yearVariants]
  constructor
  · rintro ⟨o, ho, m, hm, hmem, h⟩
    obtain ⟨v, hv, h1, h2, h3, h4, h5⟩ := (mem_monthVariants _ _ _ _ _ _ hm).1 h
    refine ⟨dstart.Year + o, m, v, ?_, hm, hmem, hv, h1, h2, h3, h4, h5⟩
    rcases ho with rfl | rfl
    · left; ring
    · right; rfl
  · rintro ⟨y, m, v, hy, hm, hmem, hv, h1, h2, h3, h4, h5⟩
    refine ⟨y - dstart.Year, by omega, m, hm, hmem, ?_⟩
    rw [show dstart.Year + (y - dstart.Year) = y by ring]
    exact (mem_monthVariants _ _ _ _ _ _ hm).2 ⟨v, hv, h1, h2, h3, h4, h5⟩

/-- The minimum loop of `findNextMonthDay` returns an element that is not
after any other. -/
theorem foldl_min_spec (l : List Time) (a : Time) :
    (l.foldl (fun minDate date => if date.Before minDate then date else minDate) a ∈ a :: l) ∧
    ∀ x ∈ a :: l,
      (l.foldl (fun minDate date => if date.Before minDate then date else minDate) a).days
        ≤ x.days := by
  induction l generalizing a with
  | nil => simp
  | cons b rest ih =>
    simp only [List.foldl_cons]
    generalize hc : (if b.Before a = true then b else a) = c
    have hc1 : c = a ∨ c = b := by
      split_ifs at hc <;> simp [← hc]
    have hc2 : c.days ≤ a.days ∧ c.days ≤ b.days := by
      split_ifs at hc with hb
      · rw [← hc]; rw [Time.Before_iff] at hb; omega
      · rw [← hc]
        have : ¬ b.days < a.days := fun h => hb ((Time.Before_iff _ _).2 h)
        omega
    obtain ⟨h1, h2⟩ := ih c
    constructor
    · rcases List.mem_cons.1 h1 with h | h
      · rw [h]; rcases hc1 with rfl | rfl <;> simp
      · simp [h]
    · intro x hx
      have hm := h2 c (List.mem_cons_self _ _)
      rcases List.mem_cons.1 hx with rfl | hx
      · omega
      · rcases List.mem_cons.1 hx with rfl | hx
        · omega
        · exact h2 x (List.mem_cons_of_mem _ hx)

/-- The function `findNextMonthDay` fails exactly when there is no candidate and otherwise
returns a least candidate. -/
theorem findNextMonthDay_spec (dstart now : Time) (targetDays targetMonths : List Int) :
    ((∀ t, ¬ isCandidate dstart now targetDays targetMonths t) ∧
      findNextMonthDay dstart targetDays targetMonths now = .error .noMonthDay) ∨
    (∃ r, isCandidate dstart now targetDays targetMonths r ∧
      (∀ t, isCandidate dstart now targetDays targetMonths t → r.days ≤ t.days) ∧
      findNextMonthDay dstart targetDays targetMonths now = .ok r) := by
  unfold findNextMonthDay
  cases hv : variantsOf dstart targetDays targetMonths now with
  | nil =>
    left
    refine ⟨fun t ht => ?_, rfl⟩
    have := (mem_variantsOf dstart now t targetDays targetMonths).2 ht
    rw [hv] at this; simp at this
  | cons first rest =>
    right
    obtain ⟨h1, h2⟩ := foldl_min_spec (first :: rest) first
    refine ⟨_, ?_, ?_, rfl⟩
    · rw [← mem_variantsOf, hv]
      rcases List.mem_cons.1 h1 with h | h
      · rw [h]; simp
      · exact h
    · intro t ht
      rw [← mem_variantsOf, hv] at ht
      exact h2 t (List.mem_cons_of_mem _ ht)

/-- The value of `NextDate` on a well-formed rule `"m " ++ rest`: the dispatcher hands the
listed days and months to `findNextMonthDay` and formats its answer. -/
theorem NextDate_monthly (now : Time) {pDate : Time} {dstart rest : List Char}
    {targetDays targetMonths : List Int} (hp : Parse dstart = some pDate)
    (hr : MonthRule rest targetDays targetMonths) :
    NextDate now dstart ('m' :: ' ' :: rest) =
      (findNextMonthDay pDate targetDays targetMonths now).map Time.Format := by
  obtain ⟨hd, hmo, hshape⟩ := hr
  have h1 : HasPrefix ('m' :: ' ' :: rest) ['d', ' '] = false := by
    simp [HasPrefix, List.isPrefixOf]
  have h2 : HasPrefix ('m' :: ' ' :: rest) ['w', ' '] = false := by
    simp [HasPrefix, List.isPrefixOf]
  have h3 : HasPrefix ('m' :: ' ' :: rest) ['m', ' '] = true := by
    simp [HasPrefix, List.isPrefixOf]
  have h4 : TrimPrefix ('m' :: ' ' :: rest) ['m', ' '] = rest := by
    simp [TrimPrefix, h3]
  have hdays : ∀ dp, List.Forall₂ (fun piece d => Atoi piece = some d) (Split dp ',')
      targetDays →
      atoiAll (fun day => decide (day < -2 ∨ day = 0 ∨ day > 31)) .monthDayFormat
        (Split dp ',') = .ok targetDays := fun dp h =>
    atoiAll_of_denotes _ _ h (fun d hd1 => by have := hd d hd1; simp; omega)
  rcases hshape with ⟨dp, hsp, hf, rfl⟩ | ⟨dp, mp, hsp, hf, hf2⟩
  · simp only [NextDate, hp, h1, h2, h3, h4, hsp, hdays dp hf, reduceCtorEq, List.cons.injEq,
      Char.reduceEq, and_false, false_and, if_false, if_true, Bool.false_eq_true,
      List.length_cons, List.length_nil, List.headD_cons, zero_add, Nat.reduceEqDiff,
      Nat.one_ne_zero, Nat.reduceGT, or_self, OfNat.one_ne_ofNat]
    cases findNextMonthDay pDate targetDays [] now <;> rfl
  · have hmonths := atoiAll_of_denotes (fun month => decide (month < 1 ∨ month > 12))
      .monthFormat hf2 (fun d hd1 => by have := hmo d hd1; simp; omega)
    simp only [NextDate, hp, h1, h2, h3, h4, hsp, hdays dp hf, reduceCtorEq, List.cons.injEq,
      Char.reduceEq, and_false, false_and, if_false, if_true, Bool.false_eq_true,
      List.length_cons, List.length_nil, List.headD_cons, zero_add, Nat.reduceEqDiff,
      Nat.one_ne_zero, Nat.reduceGT, or_self, Nat.reduceAdd, List.getD_cons_succ,
      List.getD_cons_zero, hmonths, OfNat.ofNat_ne_zero, gt_iff_lt, lt_self_iff_false]
    cases findNextMonthDay pDate targetDays targetMonths now <;> rfl

/-- C4 (month-day rule).  For a valid `lastDate`, any `now` and a well-formed
rule `"m " ++ rest` that lists the days `targetDays` and the months
`targetMonths`: when the candidate set of the specification is empty,
`findNextMonthDay` and `NextDate` fail with the no-matching-date error; when it
is not, `findNextMonthDay` returns a candidate that is not after any candidate
and `NextDate` returns that date formatted. -/
theorem month_day_rule (now pDate : Time) (dstart rest : List Char)
    (targetDays targetMonths : List Int) (hp : Parse dstart = some pDate)
    (hr : MonthRule rest targetDays targetMonths) :
    ((∀ t, ¬ isCandidate pDate now targetDays targetMonths t) →
      findNextMonthDay pDate targetDays targetMonths now = .error .noMonthDay ∧
      NextDate now dstart ('m' :: ' ' :: rest) = .error .noMonthDay) ∧
    ((∃ t, isCandidate pDate now targetDays targetMonths t) →
      ∃ r, isCandidate pDate now targetDays targetMonths r ∧
        (∀ t, isCandidate pDate now targetDays targetMonths t → r.days ≤ t.days) ∧
        findNextMonthDay pDate targetDays targetMonths now = .ok r ∧
        NextDate now dstart ('m' :: ' ' :: rest) = .ok r.Format) := by
  rw [NextDate_monthly now hp hr]
  rcases findNextMonthDay_spec pDate now targetDays targetMonths with
    ⟨hnone, he⟩ | ⟨r, hc, hmin, hok⟩
  · refine ⟨fun _ => ⟨he, by rw [he]; rfl⟩, ?_⟩
    rintro ⟨t, ht⟩
    exact absurd ht (hnone t)
  · refine ⟨fun hnone => absurd hc (hnone r), fun _ => ⟨r, hc, hmin, hok, by rw [hok]; rfl⟩⟩

/-- C4 on an instance: on 2024-01-26 the rule `"m -1,-2,15 1,2,12"` has the
candidate January 30, so a least candidate is returned. -/
theorem month_day_rule_witness :
    ∃ r, isCandidate (Date 2024 1 26) (Date 2024 1 26) [-1, -2, 15] [1, 2, 12] r ∧
      (∀ t, isCandidate (Date 2024 1 26) (Date 2024 1 26) [-1, -2, 15] [1, 2, 12] t →
        r.days ≤ t.days) ∧
      findNextMonthDay (Date 2024 1 26) [-1, -2, 15] [1, 2, 12] (Date 2024 1 26) = .ok r ∧
      NextDate (Date 2024 1 26) "20240126".toList "m -1,-2,15 1,2,12".toList = .ok r.Format :=
  (month_day_rule (Date 2024 1 26) (Date 2024 1 26) "20240126".toList
    "-1,-2,15 1,2,12".toList [-1, -2, 15] [1, 2, 12] rfl
    ⟨by decide, by decide, Or.inr ⟨"-1,-2,15".toList, "1,2,12".toList, rfl,
      List.Forall₂.cons rfl (List.Forall₂.cons rfl (List.Forall₂.cons rfl List.Forall₂.nil)),
      List.Forall₂.cons rfl (List.Forall₂.cons rfl
        (List.Forall₂.cons rfl List.Forall₂.nil))⟩⟩).2
    ⟨Date 2024 1 30, 2024, 1, -2, Or.inl (by rfl), ⟨by decide, by decide⟩,
      fun _ => by decide, by decide, by decide, by decide, by rfl, by decide, by decide⟩

/-- The rule `"m -1 2"` lists the day `-1` and the month `2`. -/
theorem MonthRule_last_of_february : MonthRule "-1 2".toList [-1] [2] :=
  ⟨by decide, by decide, Or.inr ⟨"-1".toList, "2".toList, rfl,
    List.Forall₂.cons rfl List.Forall₂.nil, List.Forall₂.cons rfl List.Forall₂.nil⟩⟩

/-- Formatting the last day of February of a year `Y`. -/
theorem Format_last_of_february (Y : Int) :
    (Date Y 2 (if isLeap Y then 29 else 28)).Format =
      appendInt Y 4 ++ ['0', '2'] ++ (if isLeap Y then ['2', '9'] else ['2', '8']) := by
  have hd : 1 ≤ (if isLeap Y then (29 : Int) else 28) ∧
      (if isLeap Y then (29 : Int) else 28) ≤ daysIn 2 Y := by
    rw [daysIn_feb]; split <;> omega
  have hm : (1 : Int) ≤ 2 ∧ (2 : Int) ≤ 12 := by omega
  unfold Time.Format
  rw [Year_Date hm hd, (Month_Day_Date hm hd).1, (Month_Day_Date hm hd).2]
  cases isLeap Y <;> rfl

/-- C10 (month-day negative index).  For a `lastDate` of year `Y` on or before
the last day of February of `Y` and a `now` before that day,
`NextDate(now, lastDate, "m -1 2")` is February 29 of `Y` when `Y` is a leap
year and February 28 of `Y` otherwise; the returned text is the year followed
by `0229` or `0228`. -/
theorem month_day_negative_index (now pDate : Time) (dstart : List Char) (Y : Int)
    (hp : Parse dstart = some pDate) (hY : pDate.Year = Y)
    (h1 : pDate.days ≤ (Date Y 2 (if isLeap Y then 29 else 28)).days)
    (h2 : now.days < (Date Y 2 (if isLeap Y then 29 else 28)).days) :
    NextDate now dstart "m -1 2".toList = .ok (Date Y 2 (if isLeap Y then 29 else 28)).Format ∧
    NextDate now dstart "m -1 2".toList =
      .ok (appendInt Y 4 ++ ['0', '2'] ++ (if isLeap Y then ['2', '9'] else ['2', '8'])) := by
  rw [← Format_last_of_february, and_self]
  show NextDate now dstart ('m' :: ' ' :: "-1 2".toList) = _
  rw [NextDate_monthly now hp MonthRule_last_of_february]
  have hfeb : ∀ y : Int, resolveDay (-1) (daysIn 2 y) = if isLeap y then 29 else 28 := by
    intro y; rw [daysIn_feb]; rfl
  have hval : ∀ y : Int, 1 ≤ (if isLeap y then (29 : Int) else 28) ∧
      (if isLeap y then (29 : Int) else 28) ≤ daysIn 2 y := by
    intro y; rw [daysIn_feb]; split <;> omega
  have hcand : isCandidate pDate now [-1] [2] (Date Y 2 (if isLeap Y then 29 else 28)) :=
    ⟨Y, 2, -1, Or.inl hY.symm, by omega, fun _ => by simp, by simp,
      by rw [hfeb]; exact (hval Y).1, by rw [hfeb]; exact (hval Y).2, by rw [hfeb], h1, h2⟩
  rcases findNextMonthDay_spec pDate now [-1] [2] with ⟨hnone, _⟩ | ⟨r, hc, hmin, hok⟩
  · exact absurd hcand (hnone _)
  · have hle := hmin _ hcand
    obtain ⟨y, m, v, hy, hm, hmem, hv, _, _, rfl, _, _⟩ := hc
    have hm2 : m = 2 := by simpa using hmem (by simp)
    have hv1 : v = -1 := by simpa using hv
    subst hm2 hv1
    rw [hfeb] at hle hok
    rw [hok]
    rcases hy with rfl | rfl
    · rw [hY]; rfl
    · exfalso
      rw [hY] at hle
      have := Date_lt_of_year_lt (by omega : (1 : Int) ≤ 2 ∧ (2 : Int) ≤ 12) (hval Y)
        (by omega : (1 : Int) ≤ 2 ∧ (2 : Int) ≤ 12) (hval (Y + 1)) (by omega : Y < Y + 1)
      omega

/-- C10 on two instances: a leap year and a non-leap year. -/
theorem month_day_negative_index_witness :
    NextDate (Date 2024 1 1) "20240101".toList "m -1 2".toList = .ok "20240229".toList ∧
    NextDate (Date 2023 1 1) "20230101".toList "m -1 2".toList = .ok "20230228".toList :=
  ⟨(month_day_negative_index (Date 2024 1 1) (Date 2024 1 1) "20240101".toList 2024 rfl
      (by rfl) (by decide) (by decide)).2,
   (month_day_negative_index (Date 2023 1 1) (Date 2023 1 1) "20230101".toList 2023 rfl
      (by rfl) (by decide) (by decide)).2⟩
/-! ## The yearly rule -/

/-- The value of `NextDate` on the rule `"y"`. -/
theorem NextDate_yearly (now : Time) {pDate : Time} {dstart : List Char}
    (hp : Parse dstart = some pDate) :
    NextDate now dstart ['y'] =
      if pDate.After now then .ok (pDate.AddDate 1 0 0).Format
      else .ok (if !(pDate.AddDate (now.Year - pDate.Year) 0 0).After now
        then (pDate.AddDate (now.Year - pDate.Year) 0 0).AddDate 1 0 0
        else pDate.AddDate (now.Year - pDate.Year) 0 0).Format := by
  have h1 : HasPrefix ['y'] ['d', ' '] = false := by decide
  simp only [NextDate, hp, h1, reduceCtorEq, if_false, if_true, Bool.false_eq_true]

/-- Go `AddDate(k, 0, 0)` keeps month and day and moves the year. -/
theorem AddDate_years (t : Time) (k : Int) : t.AddDate k 0 0 = Date (t.Year + k) t.Month t.Day := by
  unfold Time.AddDate
  rw [add_zero, add_zero]

/-- The yearly rule when `lastDate`'s month and day exist in every year: one
year past `lastDate` if `lastDate` is after `now`, else the first year in which
that month and day come after `now`. -/
theorem yearly_spec (now pDate : Time) (dstart : List Char) (m d : Int)
    (hp : Parse dstart = some pDate) (hm : 1 ≤ m ∧ m ≤ 12) (hM : pDate.Month = m)
    (hD : pDate.Day = d) (hv : ∀ y : Int, 1 ≤ d ∧ d ≤ daysIn m y) :
    (pDate.days > now.days →
      NextDate now dstart ['y'] = .ok (Date (pDate.Year + 1) m d).Format) ∧
    (pDate.days ≤ now.days →
      ∃ Y : Int, NextDate now dstart ['y'] = .ok (Date Y m d).Format ∧
        now.days < (Date Y m d).days ∧
        ∀ Z : Int, now.days < (Date Z m d).days → Y ≤ Z) := by
  rw [NextDate_yearly now hp]
  constructor
  · intro h
    rw [if_pos ((Time.After_iff _ _).2 h), AddDate_years, hM, hD]
  · intro h
    have hA : ¬ (pDate.After now = true) := by rw [Time.After_iff]; omega
    rw [if_neg hA, AddDate_years, hM, hD, show pDate.Year + (now.Year - pDate.Year) = now.Year by ring]
    have hb := now.year_bracket
    have hlow : ∀ Z : Int, now.days < (Date Z m d).days → now.Year ≤ Z := by
      intro Z hZ
      by_contra hlt
      have b := Date_bracket hm (hv Z)
      have := daysSinceEpoch_le (show Z + 1 ≤ now.Year by omega)
      omega
    by_cases hN : (Date now.Year m d).After now = true
    · refine ⟨now.Year, ?_, (Time.After_iff _ _).1 hN, hlow⟩
      simp [hN]
    · have hN2 : ¬ now.days < (Date now.Year m d).days := fun h => hN ((Time.After_iff _ _).2 h)
      refine ⟨now.Year + 1, ?_, ?_, ?_⟩
      · simp only [Bool.not_eq_true] at hN
        simp only [hN, Bool.not_false, if_true, AddDate_years]
        rw [Year_Date hm (hv _), (Month_Day_Date hm (hv _)).1, (Month_Day_Date hm (hv _)).2]
      · have b := Date_bracket hm (hv (now.Year + 1))
        omega
      · intro Z hZ
        have := hlow Z hZ
        by_contra hlt
        have : Z = now.Year := by omega
        subst this
        exact hN2 hZ

/-- C5 (yearly rule).  For a valid `lastDate` that is not a February 29 and any
`now`: if `lastDate` is after `now` the result is the date with the same month
and day one year later; otherwise it is the date with that month and day in the
earliest year `Y` for which that date is after `now`.  In every year that month
and day form a real date. -/
theorem yearly_rule (now pDate : Time) (dstart : List Char)
    (hp : Parse dstart = some pDate) (h29 : ¬(pDate.Month = 2 ∧ pDate.Day = 29)) :
    (pDate.After now = true →
      NextDate now dstart ['y'] = .ok (Date (pDate.Year + 1) pDate.Month pDate.Day).Format) ∧
    (pDate.After now = false →
      ∃ Y : Int, NextDate now dstart ['y'] = .ok (Date Y pDate.Month pDate.Day).Format ∧
        now.days < (Date Y pDate.Month pDate.Day).days ∧
        ∀ Z : Int, now.days < (Date Z pDate.Month pDate.Day).days → Y ≤ Z) ∧
    (∀ Y : Int, (Date Y pDate.Month pDate.Day).Year = Y ∧
      (Date Y pDate.Month pDate.Day).Month = pDate.Month ∧
      (Date Y pDate.Month pDate.Day).Day = pDate.Day) := by
  obtain ⟨c1, c2, c3, c4⟩ := pDate.civil_valid
  have hv : ∀ y : Int, 1 ≤ pDate.Day ∧ pDate.Day ≤ daysIn pDate.Month y :=
    fun y => valid_any_year y ⟨c1, c2⟩ ⟨c3, c4⟩ h29
  obtain ⟨ha, hb⟩ := yearly_spec now pDate dstart _ _ hp ⟨c1, c2⟩ rfl rfl hv
  refine ⟨fun h => ha ((Time.After_iff _ _).1 h), fun h => hb ?_, fun Y => ?_⟩
  · have : ¬ (pDate.After now = true) := by rw [h]; simp
    rw [Time.After_iff] at this
    omega
  · exact ⟨Year_Date ⟨c1, c2⟩ (hv Y), Month_Day_Date ⟨c1, c2⟩ (hv Y)⟩

/-- C5 on two instances: a `lastDate` after `now` moves one year on, an
overdue one moves to the first later occurrence. -/
theorem yearly_rule_witness :
    NextDate (Date 2024 1 26) "20250701".toList ['y'] = .ok "20260701".toList ∧
    ∃ Y : Int, NextDate (Date 2024 1 26) "20231231".toList ['y'] =
        .ok (Date Y (Date 2023 12 31).Month (Date 2023 12 31).Day).Format ∧
      (Date 2024 1 26).days < (Date Y (Date 2023 12 31).Month (Date 2023 12 31).Day).days ∧
      ∀ Z : Int, (Date 2024 1 26).days <
        (Date Z (Date 2023 12 31).Month (Date 2023 12 31).Day).days → Y ≤ Z :=
  ⟨(yearly_rule (Date 2024 1 26) (Date 2025 7 1) "20250701".toList rfl (by decide)).1 (by decide),
   (yearly_rule (Date 2024 1 26) (Date 2023 12 31) "20231231".toList rfl (by decide)).2.1
     (by decide)⟩
/-! ## Leap-day anchors, and the engine as a whole -/

/-- C6, the failing input: the leap-day anchor 2020-02-29 with `now` =
2023-06-15.  The year difference lands on the rolled-over 2023-03-01, which is
not after `now`, and the further year is added to that date, not to the
anchor: the result is 2024-03-01 although 2024 is a leap year. -/
theorem leap_anchor_drifts :
    Parse "20200229".toList = some (Date 2020 2 29) ∧
    NextDate (Date 2023 6 15) "20200229".toList ['y'] = .ok "20240301".toList ∧
    isLeap 2024 = true ∧
    NextDate (Date 2024 1 1) "20200229".toList ['y'] = .ok "20240229".toList :=
  ⟨by rfl, by rfl, by decide, by rfl⟩

/-- C1, the failing input: `lastDate` = 1700-01-01, `now` = 2024-03-01, rule
`"d 1"`.  The 118398 days between them do not fit a `Duration`, the difference
saturates at 106751 whole days and the result is 1992-04-12, before `now`. -/
theorem daily_result_before_now :
    Parse "17000101".toList = some (Date 1700 1 1) ∧
    (Date 2024 3 1).days - (Date 1700 1 1).days = 118398 ∧
    totalDaysOf ((Date 2024 3 1).Sub (Date 1700 1 1)) = 106751 ∧
    NextDate (Date 2024 3 1) "17000101".toList "d 1".toList = .ok (Date 1992 4 12).Format ∧
    (Date 1992 4 12).Format = "19920412".toList ∧
    (Date 1992 4 12).After (Date 2024 3 1) = false :=
  ⟨by rfl, by decide, by decide, by rfl, by rfl, by decide⟩

/-- C2, the failing input: `lastDate` = 1700-01-01, `now` = 2024-03-01, rule
`"d 30"`.  The least `k` with `lastDate + 30 k` days after `now` is 3947
(2024-03-13); the code takes 3559 steps from the saturated difference and
returns 1992-04-30. -/
theorem daily_catch_up_falls_short :
    NextDate (Date 2024 3 1) "17000101".toList "d 30".toList = .ok "19920430".toList ∧
    (Date 1700 1 1).AddDate 0 0 (3559 * 30) = Date 1992 4 30 ∧
    (Date 1700 1 1).AddDate 0 0 (3947 * 30) = Date 2024 3 13 ∧
    (Date 1700 1 1).AddDate 0 0 (3946 * 30) = Date 2024 2 12 :=
  ⟨by rfl, by decide, by decide, by decide⟩

/-- C2, the stated instance: 59 days after 2024-01-01 the rule `"d 30"` gives
2024-03-31, the third step. -/
theorem daily_catch_up_example :
    NextDate (Date 2024 3 1) "20240101".toList "d 30".toList = .ok "20240331".toList ∧
    (Date 2024 3 1).days - (Date 2024 1 1).days = 60 ∧
    (Date 2024 1 1).AddDate 0 0 (3 * 30) = Date 2024 3 31 :=
  ⟨by rfl, by decide, by decide⟩
/-! ## The shape of the results -/

theorem digitChar_ne_d (u : Nat) : digitChar u ≠ 'd' := by
  unfold digitChar
  split <;> decide

theorem digitsAux_head (fuel u : Nat) (acc : List Char) :
    ∃ v rest, digitsAux (fuel + 1) u acc = digitChar v :: rest := by
  induction fuel generalizing u acc with
  | zero =>
    unfold digitsAux
    split_ifs
    · exact ⟨_, _, rfl⟩
    · exact ⟨_, _, rfl⟩
  | succ n ih =>
    unfold digitsAux
    split_ifs
    · exact ⟨_, _, rfl⟩
    · exact ih _ _

/-- A formatted number starts with a minus sign or a digit. -/
theorem appendInt_head (x : Int) (width : Nat) :
    ∃ c rest, appendInt x width = c :: rest ∧ c ≠ 'd' := by
  unfold appendInt
  simp only []
  by_cases hx : x < 0
  · simp only [hx, if_true]
    split_ifs <;> exact ⟨'-', _, rfl, by decide⟩
  · simp only [hx, if_false, List.nil_append]
    split_ifs
    · exact ⟨_, _, rfl, digitChar_ne_d _⟩
    · exact ⟨_, _, rfl, digitChar_ne_d _⟩
    · obtain ⟨v, rest, hv⟩ := digitsAux_head x.natAbs x.natAbs []
      rw [hv]
      cases hn : width - (digitChar v :: rest).length with
      | zero => exact ⟨_, _, rfl, digitChar_ne_d _⟩
      | succ k => exact ⟨'0', _, rfl, by decide⟩

/-- No formatted date is the string `"delete"`. -/
theorem Format_ne_delete (t : Time) : t.Format ≠ deleteMark := by
  unfold Time.Format deleteMark
  obtain ⟨c, rest, h, hc⟩ := appendInt_head t.Year 4
  rw [h]
  intro heq
  simp only [List.cons_append, List.cons.injEq] at heq
  exact hc heq.1

theorem appendInt_two {x : Int} (h0 : 0 ≤ x) (h1 : x < 100) :
    appendInt x 2 = [digitChar (x.natAbs / 10), digitChar x.natAbs] := by
  have a : ¬ x < 0 := by omega
  have b : x.natAbs < 100 := by omega
  simp [appendInt, a, b]

theorem appendInt_four {x : Int} (h0 : 0 ≤ x) (h1 : x < 10000) :
    appendInt x 4 = [digitChar (x.natAbs / 1000), digitChar (x.natAbs / 100),
      digitChar (x.natAbs / 10), digitChar x.natAbs] := by
  have a : ¬ x < 0 := by omega
  have b : x.natAbs < 10000 := by omega
  simp [appendInt, a, b]

/-- C7, counterexamples: `NextDate` fails with the no-matching-date error on
well-formed month-day rules, in two ways.  The rule `"m 31 2"` (day 31, month
2) has no candidate at all: there is no February 31.  The rule `"m 1"` has
candidates, the first of every month of 2020 and 2021 when `lastDate` is
2020-01-01, but with `now` = 2024-01-01 none of them is after `now`: only the
year of `lastDate` and the next are scanned. -/
theorem no_match_is_reachable :
    MonthRule "31 2".toList [31] [2] ∧
    Parse "20240101".toList = some (Date 2024 1 1) ∧
    NextDate (Date 2024 1 1) "20240101".toList "m 31 2".toList = .error .noMonthDay ∧
    MonthRule "1".toList [1] [] ∧
    Parse "20200101".toList = some (Date 2020 1 1) ∧
    NextDate (Date 2024 1 1) "20200101".toList "m 1".toList = .error .noMonthDay :=
  ⟨⟨by decide, by decide, Or.inr ⟨"31".toList, "2".toList, rfl,
      List.Forall₂.cons rfl List.Forall₂.nil, List.Forall₂.cons rfl List.Forall₂.nil⟩⟩,
    by rfl, by rfl,
    ⟨by decide, by decide, Or.inl ⟨"1".toList, rfl,
      List.Forall₂.cons rfl List.Forall₂.nil, rfl⟩⟩,
    by rfl, by rfl⟩

/-- C7 as amended.  For a valid `lastDate` and any `now`: a well-formed weekday
rule always yields a date.  A well-formed month-day rule yields a date if and
only if it has a candidate, that is, some listed day exists in a permitted
month of the year of `lastDate` or of the next year on a date that is not
before `lastDate` and is after `now`; it fails with the no-matching-date error
if and only if it has no candidate. -/
theorem no_match_unreachable (now pDate : Time) (dstart : List Char)
    (hp : Parse dstart = some pDate) :
    (∀ (s : List Char) (ds : List Int),
      List.Forall₂ (fun piece d => Atoi piece = some d) (Split s ',') ds →
      (∀ d ∈ ds, 1 ≤ d ∧ d ≤ 7) →
      ∃ t : Time, NextDate now dstart ('w' :: ' ' :: s) = .ok t.Format) ∧
    (∀ (rest : List Char) (targetDays targetMonths : List Int),
      MonthRule rest targetDays targetMonths →
      ((∃ t : Time, NextDate now dstart ('m' :: ' ' :: rest) = .ok t.Format) ↔
        ∃ c, isCandidate pDate now targetDays targetMonths c) ∧
      (NextDate now dstart ('m' :: ' ' :: rest) = .error .noMonthDay ↔
        ∀ c, ¬ isCandidate pDate now targetDays targetMonths c)) := by
  constructor
  · intro s ds hs hr
    have hne : ds ≠ [] := by
      rintro rfl
      exact Split_ne_nil s ',' (List.forall₂_nil_right_iff.1 hs)
    have ha := atoiAll_of_denotes (fun dayNum => decide (dayNum < 1 ∨ dayNum > 7))
      .weekdayFormat hs (fun d hd => by have := hr d hd; simp; omega)
    obtain ⟨k, _, _, _, _, h5⟩ := findNextWeekday_spec now ds hne hr
    exact ⟨_, by rw [NextDate_weekly now hp ha, h5]; rfl⟩
  · intro rest targetDays targetMonths hr
    rw [NextDate_monthly now hp hr]
    rcases findNextMonthDay_spec pDate now targetDays targetMonths with
      ⟨hnone, he⟩ | ⟨r, hc, _, hok⟩
    · rw [he]
      refine ⟨⟨?_, ?_⟩, ⟨fun _ => hnone, fun _ => rfl⟩⟩
      · rintro ⟨t, ht⟩
        cases ht
      · rintro ⟨c, hc⟩
        exact absurd hc (hnone c)
    · rw [hok]
      refine ⟨⟨fun _ => ⟨r, hc⟩, fun _ => ⟨r, rfl⟩⟩, ⟨?_, ?_⟩⟩
      · intro h
        cases h
      · intro h
        exact absurd hc (h r)

/-- C7 as amended, on instances.  The rule `"w 1,3"` yields a date.  The rule
`"m 10"` with `lastDate` 2023-12-15 and `now` 2024-01-05 has the candidate
2024-01-10 and yields a date; so does `"m 29 2"` with `lastDate` = `now` =
2024-01-01, whose candidate is 2024-02-29.  The rule `"m 31 2"` fails, so it
has no candidate. -/
theorem no_match_unreachable_witness :
    (∃ t : Time, NextDate (Date 2024 1 3) "20240101".toList "w 1,3".toList = .ok t.Format) ∧
    (∃ t : Time, NextDate (Date 2024 1 5) "20231215".toList "m 10".toList = .ok t.Format) ∧
    (∃ t : Time, NextDate (Date 2024 1 1) "20240101".toList "m 29 2".toList = .ok t.Format) ∧
    (∀ c, ¬ isCandidate (Date 2024 1 1) (Date 2024 1 1) [31] [2] c) :=
  ⟨(no_match_unreachable (Date 2024 1 3) (Date 2024 1 1) "20240101".toList rfl).1
      "1,3".toList [1, 3]
      (List.Forall₂.cons rfl (List.Forall₂.cons rfl List.Forall₂.nil)) (by decide),
   (((no_match_unreachable (Date 2024 1 5) (Date 2023 12 15) "20231215".toList rfl).2
      "10".toList [10] []
      ⟨by decide, by decide, Or.inl ⟨"10".toList, rfl,
        List.Forall₂.cons rfl List.Forall₂.nil, rfl⟩⟩).1).2
      ⟨Date 2024 1 10, 2024, 1, 10, Or.inr (by rfl), ⟨by decide, by decide⟩,
        fun h => absurd rfl h, by decide, by decide, by decide, by rfl, by decide,
        by decide⟩,
   (((no_match_unreachable (Date 2024 1 1) (Date 2024 1 1) "20240101".toList rfl).2
      "29 2".toList [29] [2]
      ⟨by decide, by decide, Or.inr ⟨"29".toList, "2".toList, rfl,
        List.Forall₂.cons rfl List.Forall₂.nil, List.Forall₂.cons rfl List.Forall₂.nil⟩⟩).1).2
      ⟨Date 2024 2 29, 2024, 2, 29, Or.inl (by rfl), ⟨by decide, by decide⟩,
        fun _ => by decide, by decide, by decide, by decide, by rfl, by decide, by decide⟩,
   (((no_match_unreachable (Date 2024 1 1) (Date 2024 1 1) "20240101".toList rfl).2
      "31 2".toList [31] [2]
      ⟨by decide, by decide, Or.inr ⟨"31".toList, "2".toList, rfl,
        List.Forall₂.cons rfl List.Forall₂.nil, List.Forall₂.cons rfl List.Forall₂.nil⟩⟩).2).1
      (by rfl)⟩
/-! ## Monotonicity -/

theorem atoiAll_range {bad : Int → Bool} {e : Err} {strs : List (List Char)} {vs : List Int}
    (h : atoiAll bad e strs = .ok vs) : (∀ v ∈ vs, bad v = false) ∧ (strs ≠ [] → vs ≠ []) := by
  rw [atoiAll_ok_iff] at h
  induction h with
  | nil => simp
  | cons h1 _ ih => exact ⟨by simpa using ⟨h1.2, ih.1⟩, fun _ => by simp⟩

/-- A date that `findNextWeekday` returns is after `now`. -/
theorem findNextWeekday_after {now t : Time} {ds : List Int}
    (hb : ∀ v ∈ ds, decide (v < 1 ∨ v > 7) = false) (hne : ds ≠ [])
    (h : findNextWeekday now ds = .ok t) : now.days < t.days := by
  obtain ⟨k, h1, _, _, _, h5⟩ := findNextWeekday_spec now ds hne
    (fun d hd => by have := hb d hd; simp at this; omega)
  rw [h5] at h
  cases h
  simp only; omega

/-- A date that `findNextMonthDay` returns is after `now`. -/
theorem findNextMonthDay_after {dstart now t : Time} {tds tms : List Int}
    (h : findNextMonthDay dstart tds tms now = .ok t) : now.days < t.days := by
  rcases findNextMonthDay_spec dstart now tds tms with ⟨_, he⟩ | ⟨r, hc, _, hok⟩
  · rw [he] at h; cases h
  · rw [hok] at h
    cases h
    obtain ⟨_, _, _, _, _, _, _, _, _, _, _, h2⟩ := hc
    exact h2

/-- The result of `AddDate(1, 0, 0)` lies in a later year. -/
theorem AddDate_one_year_ge (t : Time) :
    daysSinceEpoch (t.Year + 1) ≤ (t.AddDate 1 0 0).days := by
  obtain ⟨c1, c2, c3, _⟩ := t.civil_valid
  rw [AddDate_years, Date_eq ⟨c1, c2⟩]
  have := daysBefore_mono (a := 1) (b := 11) (by omega) (by omega) (by omega)
  have h0 : 0 ≤ daysBefore (t.Month - 1) := by
    by_cases h : t.Month = 1
    · rw [h]; decide
    · have := daysBefore_mono (a := 1) (b := t.Month - 1) (by omega) (by omega) (by omega)
      have e : daysBefore 1 = 31 := by rfl
      omega
  unfold ydayOf
  simp only
  split_ifs <;> omega

/-- Monotonicity of the engine, as far as it holds.  For a valid `lastDate`
every date that `NextDate` returns is after `now`, provided that on a daily
rule `now` is at most 106751 days after `lastDate`. -/
theorem next_date_after_now (now pDate : Time) (dstart rule s : List Char)
    (hp : Parse dstart = some pDate) (hne : rule ≠ [])
    (hr : HasPrefix rule ['d', ' '] = true → now.days - pDate.days ≤ 106751)
    (h : NextDate now dstart rule = .ok s) :
    ∃ t : Time, s = t.Format ∧ now.days < t.days := by
  unfold NextDate at h
  rw [hp] at h
  simp only [hne, if_false] at h
  by_cases hd : HasPrefix rule ['d', ' '] = true
  · rw [if_pos hd] at h
    have hgap := hr hd
    cases ha : Atoi (TrimPrefix rule ['d', ' ']) with
    | none => rw [ha] at h; cases h
    | some days =>
      rw [ha] at h
      simp only at h
      by_cases hb : days ≤ 0 ∨ days > 400
      · rw [if_pos hb] at h; cases h
      · rw [if_neg hb] at h
        by_cases hA : now.After pDate = true
        · rw [if_pos hA] at h
          have hlt := (Time.After_iff _ _).1 hA
          rw [totalDaysOf_Sub hlt, min_eq_left hgap, AddDate_days] at h
          have := Int.lt_ediv_add_one_mul_self (now.days - pDate.days)
            (show (0 : Int) < days by omega)
          exact ⟨_, (Except.ok.inj h).symm, by simp only; omega⟩
        · rw [if_neg hA, AddDate_days] at h
          have : ¬ pDate.days < now.days := fun hlt => hA ((Time.After_iff _ _).2 hlt)
          exact ⟨_, (Except.ok.inj h).symm, by simp only; omega⟩
  · rw [if_neg hd] at h
    by_cases hy : rule = ['y']
    · rw [if_pos hy] at h
      by_cases hA : pDate.After now = true
      · rw [if_pos hA] at h
        have h1 := AddDate_one_year_ge pDate
        have h2 := pDate.year_bracket
        have h3 := (Time.After_iff _ _).1 hA
        exact ⟨_, (Except.ok.inj h).symm, by omega⟩
      · rw [if_neg hA] at h
        by_cases hB : (pDate.AddDate (now.Year - pDate.Year) 0 0).After now = true
        · simp only [hB, Bool.not_true, Bool.false_eq_true, if_false] at h
          exact ⟨_, (Except.ok.inj h).symm, (Time.After_iff _ _).1 hB⟩
        · simp only [Bool.not_eq_true] at hB
          simp only [hB, Bool.not_false, if_true] at h
          refine ⟨_, (Except.ok.inj h).symm, ?_⟩
          have h1 := AddDate_one_year_ge (pDate.AddDate (now.Year - pDate.Year) 0 0)
          have h2 := now.year_bracket
          obtain ⟨c1, c2, c3, _⟩ := pDate.civil_valid
          have h4 := (pDate.AddDate (now.Year - pDate.Year) 0 0).year_bracket
          have h5 : daysSinceEpoch now.Year ≤
              (pDate.AddDate (now.Year - pDate.Year) 0 0).days := by
            rw [AddDate_years, Date_eq ⟨c1, c2⟩,
              show pDate.Year + (now.Year - pDate.Year) = now.Year by ring]
            have h0 : 0 ≤ daysBefore (pDate.Month - 1) := by
              by_cases hm1 : pDate.Month = 1
              · rw [hm1]; decide
              · have := daysBefore_mono (a := 1) (b := pDate.Month - 1) (by omega) (by omega)
                  (by omega)
                have e : daysBefore 1 = 31 := by rfl
                omega
            unfold ydayOf
            simp only
            split_ifs <;> omega
          have h6 : now.Year ≤ (pDate.AddDate (now.Year - pDate.Year) 0 0).Year := by
            by_contra hlt
            have := daysSinceEpoch_le
              (show (pDate.AddDate (now.Year - pDate.Year) 0 0).Year + 1 ≤ now.Year by omega)
            omega
          have h7 := daysSinceEpoch_le
            (show now.Year + 1 ≤ (pDate.AddDate (now.Year - pDate.Year) 0 0).Year + 1 by omega)
          omega
    · rw [if_neg hy] at h
      by_cases hw : HasPrefix rule ['w', ' '] = true
      · rw [if_pos hw] at h
        cases ha : atoiAll (fun dayNum => decide (dayNum < 1 ∨ dayNum > 7)) .weekdayFormat
            (Split (TrimPrefix rule ['w', ' ']) ',') with
        | error e => rw [ha] at h; cases h
        | ok ds =>
          rw [ha] at h
          simp only at h
          obtain ⟨hb, hn⟩ := atoiAll_range ha
          cases hf : findNextWeekday now ds with
          | error e => rw [hf] at h; cases h
          | ok res =>
            rw [hf] at h
            exact ⟨res, (Except.ok.inj h).symm,
              findNextWeekday_after hb (hn (Split_ne_nil _ _)) hf⟩
      · rw [if_neg hw] at h
        by_cases hm : HasPrefix rule ['m', ' '] = true
        · rw [if_pos hm] at h
          split at h
          · cases h
          · split at h
            · cases h
            · split at h
              · cases h
              · split at h
                · cases h
                · rename_i res hf
                  exact ⟨res, (Except.ok.inj h).symm, findNextMonthDay_after hf⟩
        · rw [if_neg hm] at h; cases h
/-! ## The lists of a rule as sets -/

/-- The candidate set depends on the listed days and months only through
their values. -/
theorem isCandidate_congr (dstart now : Time) {tds1 tds2 tms1 tms2 : List Int}
    (hd : ∀ v : Int, v ∈ tds1 ↔ v ∈ tds2) (hm : ∀ m : Int, m ∈ tms1 ↔ m ∈ tms2) (t : Time) :
    isCandidate dstart now tds1 tms1 t → isCandidate dstart now tds2 tms2 t := by
  rintro ⟨y, m, v, hy, hmr, hmem, hv, h1, h2, h3, h4, h5⟩
  refine ⟨y, m, v, hy, hmr, ?_, (hd v).1 hv, h1, h2, h3, h4, h5⟩
  intro hne
  apply (hm m).1
  apply hmem
  obtain ⟨x, hx⟩ := List.exists_mem_of_ne_nil _ hne
  exact List.ne_nil_of_mem ((hm x).2 hx)

/-- Two day lists with the same values and two month lists with the same
values give `findNextMonthDay` the same result. -/
theorem findNextMonthDay_congr (dstart now : Time) {tds1 tds2 tms1 tms2 : List Int}
    (hd : ∀ v : Int, v ∈ tds1 ↔ v ∈ tds2) (hm : ∀ m : Int, m ∈ tms1 ↔ m ∈ tms2) :
    findNextMonthDay dstart tds1 tms1 now = findNextMonthDay dstart tds2 tms2 now := by
  have e12 := isCandidate_congr dstart now hd hm
  have e21 := isCandidate_congr dstart now
    (fun v => (hd v).symm) (fun m => (hm m).symm)
  rcases findNextMonthDay_spec dstart now tds1 tms1 with ⟨n1, r1⟩ | ⟨a, ca, ma, ra⟩ <;>
    rcases findNextMonthDay_spec dstart now tds2 tms2 with ⟨n2, r2⟩ | ⟨b, cb, mb, rb⟩
  · rw [r1, r2]
  · exact absurd (e21 b cb) (n1 b)
  · exact absurd (e12 a ca) (n2 a)
  · rw [ra, rb]
    have h1 := ma b (e21 b cb)
    have h2 := mb a (e12 a ca)
    have : a = b := by
      cases a; cases b
      simp only [Time.mk.injEq] at h1 h2 ⊢
      omega
    rw [this]

/-- Two weekday lists with the same values give `findNextWeekday` the same
result. -/
theorem findNextWeekday_congr (now : Time) {ds1 ds2 : List Int} (hne : ds1 ≠ [])
    (hr : ∀ d ∈ ds1, 1 ≤ d ∧ d ≤ 7) (hd : ∀ d : Int, d ∈ ds1 ↔ d ∈ ds2) :
    findNextWeekday now ds1 = findNextWeekday now ds2 := by
  have hne2 : ds2 ≠ [] := by
    obtain ⟨x, hx⟩ := List.exists_mem_of_ne_nil _ hne
    exact List.ne_nil_of_mem ((hd x).1 hx)
  obtain ⟨k1, a1, _, a3, a4, a5⟩ := findNextWeekday_spec now ds1 hne hr
  obtain ⟨k2, b1, _, b3, b4, b5⟩ := findNextWeekday_spec now ds2 hne2
    (fun d h => hr d ((hd d).2 h))
  rw [a5, b5]
  have h1 : ¬ k1 < k2 := fun h => b4 k1 a1 h ((hd _).1 a3)
  have h2 : ¬ k2 < k1 := fun h => a4 k2 b1 h ((hd _).2 b3)
  have : k1 = k2 := by omega
  rw [this]

/-- C12 (the lists of a rule behave as sets).  For a valid `lastDate` and any
`now`: two well-formed month-day rules whose day lists have the same values and
whose month lists have the same values get the same result from `NextDate`, the
same date or the same error; so do two well-formed weekday rules whose lists
have the same values. -/
theorem rule_lists_are_sets (now pDate : Time) (dstart : List Char)
    (hp : Parse dstart = some pDate) :
    (∀ (rest1 rest2 : List Char) (tds1 tds2 tms1 tms2 : List Int),
      MonthRule rest1 tds1 tms1 → MonthRule rest2 tds2 tms2 →
      (∀ v : Int, v ∈ tds1 ↔ v ∈ tds2) → (∀ m : Int, m ∈ tms1 ↔ m ∈ tms2) →
      NextDate now dstart ('m' :: ' ' :: rest1) = NextDate now dstart ('m' :: ' ' :: rest2)) ∧
    (∀ (s1 s2 : List Char) (ds1 ds2 : List Int),
      List.Forall₂ (fun piece d => Atoi piece = some d) (Split s1 ',') ds1 →
      List.Forall₂ (fun piece d => Atoi piece = some d) (Split s2 ',') ds2 →
      (∀ d ∈ ds1, 1 ≤ d ∧ d ≤ 7) → (∀ d ∈ ds2, 1 ≤ d ∧ d ≤ 7) →
      (∀ d : Int, d ∈ ds1 ↔ d ∈ ds2) →
      NextDate now dstart ('w' :: ' ' :: s1) = NextDate now dstart ('w' :: ' ' :: s2)) := by
  constructor
  · intro rest1 rest2 tds1 tds2 tms1 tms2 h1 h2 hd hm
    rw [NextDate_monthly now hp h1, NextDate_monthly now hp h2,
      findNextMonthDay_congr pDate now hd hm]
  · intro s1 s2 ds1 ds2 h1 h2 r1 r2 hd
    have hne : ds1 ≠ [] := by
      rintro rfl
      exact Split_ne_nil s1 ',' (List.forall₂_nil_right_iff.1 h1)
    have a1 := atoiAll_of_denotes (fun dayNum => decide (dayNum < 1 ∨ dayNum > 7))
      .weekdayFormat h1 (fun d hd1 => by have := r1 d hd1; simp; omega)
    have a2 := atoiAll_of_denotes (fun dayNum => decide (dayNum < 1 ∨ dayNum > 7))
      .weekdayFormat h2 (fun d hd1 => by have := r2 d hd1; simp; omega)
    rw [NextDate_weekly now hp a1, NextDate_weekly now hp a2,
      findNextWeekday_congr now hne r1 hd]

/-- C12 on the stated instance `"m 1,15 3,6"` against `"m 15,1,1 6,3"`, and on
`"w 1,3"` against `"w 3,1,3"`. -/
theorem rule_lists_are_sets_witness :
    NextDate (Date 2024 1 26) "20240126".toList "m 1,15 3,6".toList =
      NextDate (Date 2024 1 26) "20240126".toList "m 15,1,1 6,3".toList ∧
    NextDate (Date 2024 1 26) "20240126".toList "w 1,3".toList =
      NextDate (Date 2024 1 26) "20240126".toList "w 3,1,3".toList :=
  ⟨(rule_lists_are_sets (Date 2024 1 26) (Date 2024 1 26) "20240126".toList rfl).1
      "1,15 3,6".toList "15,1,1 6,3".toList [1, 15] [15, 1, 1] [3, 6] [6, 3]
      ⟨by decide, by decide, Or.inr ⟨"1,15".toList, "3,6".toList, rfl,
        List.Forall₂.cons rfl (List.Forall₂.cons rfl List.Forall₂.nil),
        List.Forall₂.cons rfl (List.Forall₂.cons rfl List.Forall₂.nil)⟩⟩
      ⟨by decide, by decide, Or.inr ⟨"15,1,1".toList, "6,3".toList, rfl,
        List.Forall₂.cons rfl (List.Forall₂.cons rfl (List.Forall₂.cons rfl List.Forall₂.nil)),
        List.Forall₂.cons rfl (List.Forall₂.cons rfl List.Forall₂.nil)⟩⟩
      (fun v => by simp only [List.mem_cons, List.not_mem_nil, or_false]; omega)
      (fun m => by simp only [List.mem_cons, List.not_mem_nil, or_false]; omega),
   (rule_lists_are_sets (Date 2024 1 26) (Date 2024 1 26) "20240126".toList rfl).2
      "1,3".toList "3,1,3".toList [1, 3] [3, 1, 3]
      (List.Forall₂.cons rfl (List.Forall₂.cons rfl List.Forall₂.nil))
      (List.Forall₂.cons rfl (List.Forall₂.cons rfl (List.Forall₂.cons rfl List.Forall₂.nil)))
      (by decide) (by decide)
      (fun d => by simp only [List.mem_cons, List.not_mem_nil, or_false]; omega)⟩
/-! ## Dates as strings -/

theorem digitChar_toNat (u : Nat) : (digitChar u).toNat = 48 + u % 10 := by
  unfold digitChar
  split <;> rename_i h <;> first
    | (rw [h]; rfl)
    | (have h9 : u % 10 = 9 := by
        have := Nat.mod_lt u (show 10 > 0 by decide)
        by_contra hne
        have hlt : u % 10 < 9 := by omega
        interval_cases hu : u % 10 <;> simp_all
       rw [h9]; rfl)

theorem Char_eq_of_toNat {c d : Char} (h : c.toNat = d.toNat) : c = d :=
  Char.ext (UInt32.eq_of_val_eq (Fin.eq_of_val_eq h))

/-- A digit is the character of its own value. -/
theorem digitChar_of_isDigit {c : Char} {u : Nat} (hc : isDigit c = true)
    (hu : u % 10 = digitVal c) : digitChar u = c := by
  apply Char_eq_of_toNat
  rw [digitChar_toNat, hu]
  simp only [isDigit, Bool.and_eq_true, decide_eq_true_eq] at hc
  unfold digitVal
  omega

theorem strLess_cons (a b : Char) (as bs : List Char) :
    strLess (a :: as) (b :: bs) = true ↔
      a.toNat < b.toNat ∨ (a.toNat = b.toNat ∧ strLess as bs = true) := by
  simp only [strLess]
  split_ifs with h1 h2
  · simp [h1]
  · simp only [Bool.false_eq_true, false_iff]; omega
  · have : a.toNat = b.toNat := by omega
    simp [this]

/-- The string order on two eight-digit dates is the order of the numbers
`YYYYMMDD`. -/
theorem strLess_eight_digits (y m d y1 m1 d1 : Nat) (hy : y < 10000) (hm : m < 100)
    (hd : d < 100) (hy1 : y1 < 10000) (hm1 : m1 < 100) (hd1 : d1 < 100) :
    strLess
      [digitChar (y / 1000), digitChar (y / 100), digitChar (y / 10), digitChar y,
        digitChar (m / 10), digitChar m, digitChar (d / 10), digitChar d]
      [digitChar (y1 / 1000), digitChar (y1 / 100), digitChar (y1 / 10), digitChar y1,
        digitChar (m1 / 10), digitChar m1, digitChar (d1 / 10), digitChar d1] = true ↔
    y * 10000 + m * 100 + d < y1 * 10000 + m1 * 100 + d1 := by
  have e0 : strLess [] [] = false := rfl
  simp only [strLess_cons, digitChar_toNat, e0, Bool.false_eq_true, and_false, or_false]
  obtain ⟨a1, a2, a3, a4, ha, ha1, ha2, ha3, ha4⟩ : ∃ a1 a2 a3 a4 : Nat,
      y = 1000 * a1 + 100 * a2 + 10 * a3 + a4 ∧ y / 1000 % 10 = a1 ∧ y / 100 % 10 = a2 ∧
        y / 10 % 10 = a3 ∧ y % 10 = a4 := ⟨_, _, _, _, by omega, rfl, rfl, rfl, rfl⟩
  obtain ⟨b1, b2, b3, b4, hb, hb1, hb2, hb3, hb4⟩ : ∃ b1 b2 b3 b4 : Nat,
      y1 = 1000 * b1 + 100 * b2 + 10 * b3 + b4 ∧ y1 / 1000 % 10 = b1 ∧ y1 / 100 % 10 = b2 ∧
        y1 / 10 % 10 = b3 ∧ y1 % 10 = b4 := ⟨_, _, _, _, by omega, rfl, rfl, rfl, rfl⟩
  obtain ⟨a5, a6, hma, ha5, ha6⟩ : ∃ a5 a6 : Nat, m = 10 * a5 + a6 ∧ m / 10 % 10 = a5 ∧
      m % 10 = a6 := ⟨_, _, by omega, rfl, rfl⟩
  obtain ⟨b5, b6, hmb, hb5, hb6⟩ : ∃ b5 b6 : Nat, m1 = 10 * b5 + b6 ∧ m1 / 10 % 10 = b5 ∧
      m1 % 10 = b6 := ⟨_, _, by omega, rfl, rfl⟩
  obtain ⟨a7, a8, hda, ha7, ha8⟩ : ∃ a7 a8 : Nat, d = 10 * a7 + a8 ∧ d / 10 % 10 = a7 ∧
      d % 10 = a8 := ⟨_, _, by omega, rfl, rfl⟩
  obtain ⟨b7, b8, hdb, hb7, hb8⟩ : ∃ b7 b8 : Nat, d1 = 10 * b7 + b8 ∧ d1 / 10 % 10 = b7 ∧
      d1 % 10 = b8 := ⟨_, _, by omega, rfl, rfl⟩
  have r1 : a1 < 10 ∧ a2 < 10 ∧ a3 < 10 ∧ a4 < 10 ∧ a5 < 10 ∧ a6 < 10 ∧ a7 < 10 ∧ a8 < 10 := by
    omega
  have r2 : b1 < 10 ∧ b2 < 10 ∧ b3 < 10 ∧ b4 < 10 ∧ b5 < 10 ∧ b6 < 10 ∧ b7 < 10 ∧ b8 < 10 := by
    omega
  rw [ha1, ha2, ha3, ha4, hb1, hb2, hb3, hb4, ha5, ha6, hb5, hb6, ha7, ha8, hb7, hb8, ha, hb,
    hma, hmb, hda, hdb]
  clear ha1 ha2 ha3 ha4 hb1 hb2 hb3 hb4 ha5 ha6 hb5 hb6 ha7 ha8 hb7 hb8 ha hb hma hmb hda hdb
  omega

/-- The text of a date of the years 0 to 9999. -/
theorem Format_small_year (t : Time) (hy : 0 ≤ t.Year ∧ t.Year ≤ 9999) :
    t.Format =
      [digitChar (t.Year.natAbs / 1000), digitChar (t.Year.natAbs / 100),
        digitChar (t.Year.natAbs / 10), digitChar t.Year.natAbs,
        digitChar (t.Month.natAbs / 10), digitChar t.Month.natAbs,
        digitChar (t.Day.natAbs / 10), digitChar t.Day.natAbs] := by
  obtain ⟨c1, c2, c3, c4⟩ := t.civil_valid
  have c5 := (daysIn_bounds t.Year ⟨c1, c2⟩).2
  unfold Time.Format
  rw [appendInt_four hy.1 (by omega), appendInt_two (by omega) (by omega),
    appendInt_two (by omega) (by omega)]
  rfl

/-- Times are ordered like their civil dates, read as numbers `YYYYMMDD`. -/
theorem days_lt_iff_civil_lt (t u : Time) :
    t.days < u.days ↔
      t.Year * 10000 + t.Month * 100 + t.Day < u.Year * 10000 + u.Month * 100 + u.Day := by
  obtain ⟨a1, a2, a3, a4⟩ := t.civil_valid
  obtain ⟨b1, b2, b3, b4⟩ := u.civil_valid
  have a5 := (daysIn_bounds t.Year ⟨a1, a2⟩).2
  have b5 := (daysIn_bounds u.Year ⟨b1, b2⟩).2
  have et := congrArg Time.days (Date_civil t)
  have eu := congrArg Time.days (Date_civil u)
  rw [Date_eq ⟨a1, a2⟩] at et
  rw [Date_eq ⟨b1, b2⟩] at eu
  simp only at et eu
  have mono : ∀ {y m d z m1 d1 : Int}, (1 ≤ m ∧ m ≤ 12) → (1 ≤ d ∧ d ≤ daysIn m y) →
      (1 ≤ m1 ∧ m1 ≤ 12) → (1 ≤ d1 ∧ d1 ≤ daysIn m1 z) →
      y * 10000 + m * 100 + d < z * 10000 + m1 * 100 + d1 →
      daysSinceEpoch y + ydayOf y m d < daysSinceEpoch z + ydayOf z m1 d1 := by
    intro y m d z m1 d1 hm hd hm1 hd1 h
    have l1 := (daysIn_bounds y hm).2
    have l2 := (daysIn_bounds z hm1).2
    rcases lt_trichotomy y z with c | c | c
    · have := Date_lt_of_year_lt hm hd hm1 hd1 c
      rw [Date_eq hm, Date_eq hm1] at this
      exact this
    · subst c
      rcases lt_trichotomy m m1 with e | e | e
      · have := ydayOf_lt_of_month_lt hm hd hm1 hd1 e; omega
      · subst e; unfold ydayOf; omega
      · omega
    · omega
  constructor
  · intro h
    by_contra hn
    rcases lt_or_eq_of_le (not_lt.1 hn) with c | c
    · have := mono ⟨b1, b2⟩ ⟨b3, b4⟩ ⟨a1, a2⟩ ⟨a3, a4⟩ c
      omega
    · have hY : t.Year = u.Year := by omega
      have hM : t.Month = u.Month := by omega
      have hD : t.Day = u.Day := by omega
      rw [hY, hM, hD] at et
      omega
  · intro h
    have := mono ⟨a1, a2⟩ ⟨a3, a4⟩ ⟨b1, b2⟩ ⟨b3, b4⟩ h
    omega

/-- On dates of the years 0 to 9999 the string comparison of the code is the
comparison of the dates. -/
theorem strLess_Format (t u : Time) (ht : 0 ≤ t.Year ∧ t.Year ≤ 9999)
    (hu : 0 ≤ u.Year ∧ u.Year ≤ 9999) :
    strLess t.Format u.Format = true ↔ t.days < u.days := by
  obtain ⟨a1, a2, a3, a4⟩ := t.civil_valid
  obtain ⟨b1, b2, b3, b4⟩ := u.civil_valid
  have a5 := (daysIn_bounds t.Year ⟨a1, a2⟩).2
  have b5 := (daysIn_bounds u.Year ⟨b1, b2⟩).2
  rw [Format_small_year t ht, Format_small_year u hu,
    strLess_eight_digits _ _ _ _ _ _ (by omega) (by omega) (by omega) (by omega) (by omega)
      (by omega), days_lt_iff_civil_lt]
  omega

/-- Parsing a date and formatting it again gives the text back; the parsed
date has a year from 0 to 9999. -/
theorem Format_Parse {s : List Char} {t : Time} (h : Parse s = some t) :
    t.Format = s ∧ 0 ≤ t.Year ∧ t.Year ≤ 9999 := by
  unfold Parse at h
  split at h
  · rename_i y1 y2 y3 y4 m1 m2 d1 d2
    split_ifs at h with hd
    simp only [] at h
    split_ifs at h with hmo hda
    simp only [Option.some.injEq] at h
    simp only [List.all_cons, List.all_nil, Bool.and_true, Bool.and_eq_true] at hd
    obtain ⟨g1, g2, g3, g4, g5, g6, g7, g8⟩ := hd
    have r : ∀ c : Char, isDigit c = true → digitVal c ≤ 9 := by
      intro c hc
      simp only [isDigit, Bool.and_eq_true, decide_eq_true_eq] at hc
      unfold digitVal; omega
    have q1 := r y1 g1
    have q2 := r y2 g2
    have q3 := r y3 g3
    have q4 := r y4 g4
    have q5 := r m1 g5
    have q6 := r m2 g6
    have q7 := r d1 g7
    have q8 := r d2 g8
    have hm : 1 ≤ ((digitVal m1 : Int) * 10 + digitVal m2) ∧
        ((digitVal m1 : Int) * 10 + digitVal m2) ≤ 12 := by omega
    have hdv : 1 ≤ ((digitVal d1 : Int) * 10 + digitVal d2) ∧
        ((digitVal d1 : Int) * 10 + digitVal d2) ≤ daysIn ((digitVal m1 : Int) * 10 + digitVal m2)
          ((digitVal y1 : Int) * 1000 + digitVal y2 * 100 + digitVal y3 * 10 + digitVal y4) := by
      omega
    have eY := Year_Date hm hdv
    have eMD := Month_Day_Date hm hdv
    rw [h] at eY eMD
    have hyr : 0 ≤ t.Year ∧ t.Year ≤ 9999 := by rw [eY]; omega
    refine ⟨?_, hyr⟩
    rw [Format_small_year t hyr, eY, eMD.1, eMD.2]
    have e1 := digitChar_of_isDigit (u := ((digitVal y1 : Int) * 1000 + digitVal y2 * 100 +
      digitVal y3 * 10 + digitVal y4).natAbs / 1000) g1 (by omega)
    have e2 := digitChar_of_isDigit (u := ((digitVal y1 : Int) * 1000 + digitVal y2 * 100 +
      digitVal y3 * 10 + digitVal y4).natAbs / 100) g2 (by omega)
    have e3 := digitChar_of_isDigit (u := ((digitVal y1 : Int) * 1000 + digitVal y2 * 100 +
      digitVal y3 * 10 + digitVal y4).natAbs / 10) g3 (by omega)
    have e4 := digitChar_of_isDigit (u := ((digitVal y1 : Int) * 1000 + digitVal y2 * 100 +
      digitVal y3 * 10 + digitVal y4).natAbs) g4 (by omega)
    have e5 := digitChar_of_isDigit
      (u := ((digitVal m1 : Int) * 10 + digitVal m2).natAbs / 10) g5 (by omega)
    have e6 := digitChar_of_isDigit
      (u := ((digitVal m1 : Int) * 10 + digitVal m2).natAbs) g6 (by omega)
    have e7 := digitChar_of_isDigit
      (u := ((digitVal d1 : Int) * 10 + digitVal d2).natAbs / 10) g7 (by omega)
    have e8 := digitChar_of_isDigit
      (u := ((digitVal d1 : Int) * 10 + digitVal d2).natAbs) g8 (by omega)
    rw [e1, e2, e3, e4, e5, e6, e7, e8]
  · exact absurd h (by simp)
/-! ## Date normalisation in `Create` and `Update` -/

theorem Parse_ne_nil {s : List Char} {t : Time} (h : Parse s = some t) : s ≠ [] := by
  intro e
  rw [e] at h
  exact absurd h (by simp [Parse])

theorem strLess_Format_false {t u : Time} (ht : 0 ≤ t.Year ∧ t.Year ≤ 9999)
    (hu : 0 ≤ u.Year ∧ u.Year ≤ 9999) (h : u.days ≤ t.days) :
    strLess t.Format u.Format = false := by
  have := (strLess_Format t u ht hu).not.2 (by omega)
  simpa using this

/-- The date normalisation of `Create` for a task with a title and a date that
parses, on a day `now` of the years 0 to 9999.  The result is always the task
handed to the repository together with the repository's answer (its error
wrapped), except when `NextDate` fails. -/
theorem Create_normalises {ε : Type} (now now2 date : Time)
    (createTask : Task → Except ε Int) (task : Task) (ht : task.Title ≠ [])
    (hp : Parse task.Date = some date) (hn : 0 ≤ now.Year ∧ now.Year ≤ 9999) :
    (task.Repeat = [] → date.days < now.days →
      Create now now2 createTask task =
        ({ task with Date := now.Format },
          (createTask { task with Date := now.Format }).mapError
            fun e => NewCustomError 0 .ErrInternalServer (some (.storage e)))) ∧
    (task.Repeat ≠ [] → date.days < now.days →
      ∀ next, NextDate now task.Date task.Repeat = .ok next →
        Create now now2 createTask task =
          ({ task with Date := next },
            (createTask { task with Date := next }).mapError
              fun e => NewCustomError 0 .ErrInternalServer (some (.storage e)))) ∧
    (task.Repeat ≠ [] → date.days < now.days →
      ∀ e, NextDate now task.Date task.Repeat = .error e →
        Create now now2 createTask task =
          ({ task with Date := [] },
            .error (NewCustomError 0 .ErrInternalServer (some (.engine e))))) ∧
    (now.days ≤ date.days →
      Create now now2 createTask task =
        (task, (createTask task).mapError
          fun e => NewCustomError 0 .ErrInternalServer (some (.storage e)))) := by
  obtain ⟨hf, hy⟩ := Format_Parse hp
  have hd := Parse_ne_nil hp
  have hs2 := strLess_Format_false hn hn (le_refl now.days)
  refine ⟨fun hr hlt => ?_, fun hr hlt next hx => ?_, fun hr hlt e hx => ?_, fun hge => ?_⟩
  · have hs : strLess date.Format now.Format = true := (strLess_Format date now hy hn).2 hlt
    simp only [Create, ht, hd, hp, if_false]
    rw [if_pos (show task.Repeat = [] ∧ strLess date.Format now.Format = true from ⟨hr, hs⟩)]
    simp only [hs2, Bool.false_eq_true, if_false]
    split <;> rename_i h <;> rw [h] <;> rfl
  · have hs : strLess task.Date now.Format = true := by
      rw [← hf]; exact (strLess_Format date now hy hn).2 hlt
    simp only [Create, ht, hd, hp, if_false]
    rw [if_neg (show ¬(task.Repeat = [] ∧ strLess date.Format now.Format = true) from
      fun h => hr h.1)]
    simp only [hs, if_true, hx]
    split <;> rename_i h <;> rw [h] <;> rfl
  · have hs : strLess task.Date now.Format = true := by
      rw [← hf]; exact (strLess_Format date now hy hn).2 hlt
    simp only [Create, ht, hd, hp, if_false]
    rw [if_neg (show ¬(task.Repeat = [] ∧ strLess date.Format now.Format = true) from
      fun h => hr h.1)]
    simp only [hs, if_true, hx]
  · have hs : strLess date.Format now.Format = false := strLess_Format_false hy hn hge
    have hs3 : strLess task.Date now.Format = false := by rw [← hf]; exact hs
    simp only [Create, ht, hd, hp, if_false]
    rw [if_neg (show ¬(task.Repeat = [] ∧ strLess date.Format now.Format = true) from
      fun h => by rw [hs] at h; exact absurd h.2 (by simp))]
    simp only [hs3, Bool.false_eq_true, if_false]
    split <;> rename_i h <;> rw [h] <;> rfl

/-- The date normalisation of `Update`, as for `Create`. -/
theorem Update_normalises {ε : Type} (now now2 date : Time)
    (updateTask : Task → Option ε) (task : Task) (ht : task.Title ≠ [])
    (hp : Parse task.Date = some date) (hn : 0 ≤ now.Year ∧ now.Year ≤ 9999) :
    (task.Repeat = [] → date.days < now.days →
      Update now now2 updateTask task =
        ({ task with Date := now.Format },
          (updateTask { task with Date := now.Format }).map
            fun e => NewCustomError 0 .ErrInternalServer (some (.storage e)))) ∧
    (task.Repeat ≠ [] → date.days < now.days →
      ∀ next, NextDate now task.Date task.Repeat = .ok next →
        Update now now2 updateTask task =
          ({ task with Date := next },
            (updateTask { task with Date := next }).map
              fun e => NewCustomError 0 .ErrInternalServer (some (.storage e)))) ∧
    (task.Repeat ≠ [] → date.days < now.days →
      ∀ e, NextDate now task.Date task.Repeat = .error e →
        Update now now2 updateTask task =
          ({ task with Date := [] },
            some (NewCustomError 0 .ErrInternalServer (some (.engine e))))) ∧
    (now.days ≤ date.days →
      Update now now2 updateTask task =
        (task, (updateTask task).map
          fun e => NewCustomError 0 .ErrInternalServer (some (.storage e)))) := by
  obtain ⟨hf, hy⟩ := Format_Parse hp
  have hd := Parse_ne_nil hp
  have hs2 := strLess_Format_false hn hn (le_refl now.days)
  refine ⟨fun hr hlt => ?_, fun hr hlt next hx => ?_, fun hr hlt e hx => ?_, fun hge => ?_⟩
  · have hs : strLess date.Format now.Format = true := (strLess_Format date now hy hn).2 hlt
    simp only [Update, ht, hd, hp, if_false]
    rw [if_pos (show task.Repeat = [] ∧ strLess date.Format now.Format = true from ⟨hr, hs⟩)]
    simp only [hs2, Bool.false_eq_true, if_false]
    split <;> rename_i h <;> rw [h] <;> rfl
  · have hs : strLess task.Date now.Format = true := by
      rw [← hf]; exact (strLess_Format date now hy hn).2 hlt
    simp only [Update, ht, hd, hp, if_false]
    rw [if_neg (show ¬(task.Repeat = [] ∧ strLess date.Format now.Format = true) from
      fun h => hr h.1)]
    simp only [hs, if_true, hx]
    split <;> rename_i h <;> rw [h] <;> rfl
  · have hs : strLess task.Date now.Format = true := by
      rw [← hf]; exact (strLess_Format date now hy hn).2 hlt
    simp only [Update, ht, hd, hp, if_false]
    rw [if_neg (show ¬(task.Repeat = [] ∧ strLess date.Format now.Format = true) from
      fun h => hr h.1)]
    simp only [hs, if_true, hx]
  · have hs : strLess date.Format now.Format = false := strLess_Format_false hy hn hge
    have hs3 : strLess task.Date now.Format = false := by rw [← hf]; exact hs
    simp only [Update, ht, hd, hp, if_false]
    rw [if_neg (show ¬(task.Repeat = [] ∧ strLess date.Format now.Format = true) from
      fun h => by rw [hs] at h; exact absurd h.2 (by simp))]
    simp only [hs3, Bool.false_eq_true, if_false]
    split <;> rename_i h <;> rw [h] <;> rfl

/-- The persisted date, as far as the claim about it holds.  For a task with a
title and a date that parses, on a day `now` of the years 0 to 9999, and
provided that on a daily rule `now` is at most 106751 days after the task's
date: either `NextDate` fails and nothing is handed to the repository, or the
repository receives the task with a date that is not before `now` and is not
the string `"delete"`.  The same holds for `Update`. -/
theorem persisted_date_sound {ε : Type} (now now2 date : Time) (task : Task)
    (ht : task.Title ≠ []) (hp : Parse task.Date = some date)
    (hn : 0 ≤ now.Year ∧ now.Year ≤ 9999)
    (hgap : HasPrefix task.Repeat ['d', ' '] = true → now.days - date.days ≤ 106751) :
    (∀ createTask : Task → Except ε Int,
      (∃ e, Create now now2 createTask task =
        ({ task with Date := [] },
          .error (NewCustomError 0 .ErrInternalServer (some (.engine e))))) ∨
      (∃ d : Time, now.days ≤ d.days ∧ d.Format ≠ deleteMark ∧
        Create now now2 createTask task =
          ({ task with Date := d.Format },
            (createTask { task with Date := d.Format }).mapError
              fun e => NewCustomError 0 .ErrInternalServer (some (.storage e))))) ∧
    (∀ updateTask : Task → Option ε,
      (∃ e, Update now now2 updateTask task =
        ({ task with Date := [] },
          some (NewCustomError 0 .ErrInternalServer (some (.engine e))))) ∨
      (∃ d : Time, now.days ≤ d.days ∧ d.Format ≠ deleteMark ∧
        Update now now2 updateTask task =
          ({ task with Date := d.Format },
            (updateTask { task with Date := d.Format }).map
              fun e => NewCustomError 0 .ErrInternalServer (some (.storage e))))) := by
  obtain ⟨hf, _⟩ := Format_Parse hp
  have hself : ({ task with Date := date.Format } : Task) = task := by
    cases task; simp only [Task.mk.injEq, true_and, and_true]; exact hf
  constructor
  · intro createTask
    obtain ⟨ca, cb, cc, cd⟩ := Create_normalises now now2 date createTask task ht hp hn
    by_cases hlt : date.days < now.days
    · by_cases hr : task.Repeat = []
      · exact Or.inr ⟨now, le_refl _, Format_ne_delete now, ca hr hlt⟩
      · cases hx : NextDate now task.Date task.Repeat with
        | error e => exact Or.inl ⟨e, cc hr hlt e hx⟩
        | ok next =>
          obtain ⟨t, rfl, hlt2⟩ := next_date_after_now now date task.Date task.Repeat next hp hr
            hgap hx
          exact Or.inr ⟨t, by omega, Format_ne_delete t, cb hr hlt _ hx⟩
    · refine Or.inr ⟨date, by omega, Format_ne_delete date, ?_⟩
      rw [hself]
      exact cd (by omega)
  · intro updateTask
    obtain ⟨ca, cb, cc, cd⟩ := Update_normalises now now2 date updateTask task ht hp hn
    by_cases hlt : date.days < now.days
    · by_cases hr : task.Repeat = []
      · exact Or.inr ⟨now, le_refl _, Format_ne_delete now, ca hr hlt⟩
      · cases hx : NextDate now task.Date task.Repeat with
        | error e => exact Or.inl ⟨e, cc hr hlt e hx⟩
        | ok next =>
          obtain ⟨t, rfl, hlt2⟩ := next_date_after_now now date task.Date task.Repeat next hp hr
            hgap hx
          exact Or.inr ⟨t, by omega, Format_ne_delete t, cb hr hlt _ hx⟩
    · refine Or.inr ⟨date, by omega, Format_ne_delete date, ?_⟩
      rw [hself]
      exact cd (by omega)

/-- C11, the failing input: on 2024-03-01 a task with the date `17000101` and
the rule `"d 1"` is created or updated.  The date is before today and the rule
is not empty, so the date handed to the repository is
`NextDate(now, "17000101", "d 1")`, which is `19920412`: a date before
today. -/
theorem persisted_date_before_today :
    (Date 2024 3 1).Format = "20240301".toList ∧
    NextDate (Date 2024 3 1) "17000101".toList "d 1".toList = .ok "19920412".toList ∧
    Create (Date 2024 3 1) (Date 2024 3 1) (fun _ => (.ok 1 : Except Unit Int))
        ⟨[], "17000101".toList, "title".toList, "d 1".toList⟩ =
      (⟨[], "19920412".toList, "title".toList, "d 1".toList⟩, .ok 1) ∧
    Update (Date 2024 3 1) (Date 2024 3 1) (fun _ => (none : Option Unit))
        ⟨"7".toList, "17000101".toList, "title".toList, "d 1".toList⟩ =
      (⟨"7".toList, "19920412".toList, "title".toList, "d 1".toList⟩, none) ∧
    strLess "19920412".toList (Date 2024 3 1).Format = true :=
  ⟨by rfl, by rfl, by rfl, by rfl, by rfl⟩

/-- C11 on ordinary instances: an overdue task without a rule is moved to
today, an overdue task with the rule `"d 7"` to its next occurrence, and a task
that is not overdue keeps its date. -/
theorem normalisation_examples :
    (Create (Date 2024 1 26) (Date 2024 1 26) (fun _ => (.ok 1 : Except Unit Int))
        ⟨[], "20240113".toList, "title".toList, []⟩).1.Date = "20240126".toList ∧
    (Create (Date 2024 1 26) (Date 2024 1 26) (fun _ => (.ok 1 : Except Unit Int))
        ⟨[], "20240113".toList, "title".toList, "d 7".toList⟩).1.Date = "20240127".toList ∧
    (Create (Date 2024 1 26) (Date 2024 1 26) (fun _ => (.ok 1 : Except Unit Int))
        ⟨[], "20240201".toList, "title".toList, "d 7".toList⟩).1.Date = "20240201".toList ∧
    (Update (Date 2024 1 26) (Date 2024 1 26) (fun _ => (none : Option Unit))
        ⟨"7".toList, "20240113".toList, "title".toList, "d 7".toList⟩).1.Date =
      "20240127".toList :=
  ⟨by rfl, by rfl, by rfl, by rfl⟩

end Todo
